import Mathlib

/-!
Verification of the natural-language specification of the
Calculadora_Integrales repository (single source file `app.py`) against a
shallow embedding of its `/calculate` request handler.

The handler (function `calculate` in `app.py`) parses a user expression with
sympy's `parse_expr` (with implicit multiplication), computes the symbolic
antiderivative with `sp.integrate`, samples the function and the
antiderivative on 200 evenly spaced points of `[-10, 10]` with a numeric
closure (`sp.lambdify` over numpy), replaces every value of magnitude above
`1e6` by NaN (`np.where`), sanitizes NaN/Infinity to `None`
(`clean_array_for_json`), and, when both bounds are supplied, converts them
with Python `float`, evaluates the definite integral, and samples 100 area
points over `[lower, upper]`.  Parse/setup exceptions produce
`{success: false, error: str(e)}`; series and definite failures are swallowed
locally.

Modelling conventions of the embedding:
* A finite machine floating point number is idealized as an exact fraction
  `Frac` (integer numerator, positive natural denominator, arithmetic
  without normalization, so that every operation evaluates inside the Lean
  kernel); its mathematical value is `Frac.toR : Frac → ℝ`.  The special
  values NaN and the two infinities get their own constructors (`PFloat`),
  since the sanitizer and the clamp treat them specially.
* The external sympy engine is embedded on the fragment of its behaviour the
  handler exercises: an expression AST `Expr`, a character-level model of
  `parse_expr` with the `implicit_multiplication_application` transformation
  on the grammar fragment numbers / variable / other symbols /
  `+ - * **` (natural exponents) / parentheses / applications of undefined
  function names (sympy `AppliedUndef`), `integrateE` for `sp.integrate`
  (with an `intg` node standing for an unevaluated `Integral(...)` result),
  `derivE` for `sp.diff`, and `evalN` for the numeric closure produced by
  `sp.lambdify` (exact on the polynomial fragment reachable from the parser;
  `none` models the closure raising, e.g. `NameError` for undefined
  functions or unevaluated `Integral` objects).  Inputs outside this
  fragment are rejected by the modelled parser (a partiality of the model,
  not a statement about sympy).
* The real-number meaning of an expression is `evalR : Expr → ℝ → ℝ`.
-/

deriving instance DecidableEq for Except

namespace CalcModel

/-- An exact fraction: the idealization of a finite Python/numpy floating
point value.  The denominator is a positive natural number; arithmetic does
not normalize, so that it reduces inside the Lean kernel. -/
structure Frac where
  num : ℤ
  den : ℕ+
  deriving DecidableEq

namespace Frac

/-- Addition of fractions (cross multiplication, no normalization). -/
def add (a b : Frac) : Frac :=
  ⟨a.num * (b.den : ℕ) + b.num * (a.den : ℕ), a.den * b.den⟩

/-- Negation. -/
def neg (a : Frac) : Frac :=
  ⟨-a.num, a.den⟩

/-- Subtraction. -/
def sub (a b : Frac) : Frac :=
  a.add b.neg

/-- Multiplication. -/
def mul (a b : Frac) : Frac :=
  ⟨a.num * b.num, a.den * b.den⟩

/-- Natural power. -/
def npow (a : Frac) (n : ℕ) : Frac :=
  ⟨a.num ^ n, a.den ^ n⟩

/-- The fraction denoting a natural number. -/
def ofNat (n : ℕ) : Frac :=
  ⟨n, 1⟩

/-- Reciprocal of a fraction with a non-zero numerator (the zero case is a
junk value, never produced: callers test the numerator first). -/
def inv (f : Frac) : Frac :=
  if h : f.num = 0 then ⟨0, 1⟩
  else ⟨if 0 ≤ f.num then ((f.den : ℕ) : ℤ) else -((f.den : ℕ) : ℤ),
        ⟨f.num.natAbs, Int.natAbs_pos.mpr h⟩⟩

/-- Real value of a fraction. -/
noncomputable def toR (f : Frac) : ℝ :=
  (f.num : ℝ) / ((f.den : ℕ) : ℝ)

end Frac

/-- Symbolic expression AST: the fragment of sympy expressions the handler
exercises.  `var` is the integration variable (the symbol built from the
request's `variable` field); `sym s` is any other plain symbol; `ufun f a`
is an application `f(a)` of an undefined function name (sympy
`AppliedUndef`); `intg a` stands for an unevaluated `Integral(a, x)`
returned by `sp.integrate` when it finds no elementary antiderivative. -/
inductive Expr where
  | const (c : Frac)
  | var
  | sym (s : String)
  | add (a b : Expr)
  | neg (a : Expr)
  | mul (a b : Expr)
  | pow (a : Expr) (n : ℕ)
  | ipow (a : Expr) (n : ℕ)
  | sinx
  | cosx
  | expx
  | ufun (f : String) (a : Expr)
  | intg (a : Expr)
  deriving DecidableEq

/-- A Python/numpy floating point value: a finite number (idealized as an
exact fraction), NaN, `+Infinity` or `-Infinity`.  `ipow` on the AST stands
for `a ** (-n)`, a negative integer exponent; numpy evaluates it without
raising, producing `inf` at a zero base, so floating point values carry the
IEEE special values through the arithmetic below. -/
inductive PFloat where
  | num (f : Frac)
  | nan
  | inf
  | ninf
  deriving DecidableEq

namespace PFloat

/-- IEEE addition on the modelled values. -/
def addP : PFloat → PFloat → PFloat
  | .num a, .num b => .num (a.add b)
  | .nan, _ => .nan
  | _, .nan => .nan
  | .inf, .inf => .inf
  | .inf, .ninf => .nan
  | .ninf, .inf => .nan
  | .ninf, .ninf => .ninf
  | .inf, .num _ => .inf
  | .num _, .inf => .inf
  | .ninf, .num _ => .ninf
  | .num _, .ninf => .ninf

/-- IEEE negation. -/
def negP : PFloat → PFloat
  | .num a => .num a.neg
  | .nan => .nan
  | .inf => .ninf
  | .ninf => .inf

/-- IEEE multiplication (an infinity times zero is NaN, otherwise signs
multiply). -/
def mulP : PFloat → PFloat → PFloat
  | .num a, .num b => .num (a.mul b)
  | .nan, _ => .nan
  | _, .nan => .nan
  | .inf, .inf => .inf
  | .inf, .ninf => .ninf
  | .ninf, .inf => .ninf
  | .ninf, .ninf => .inf
  | .inf, .num b => if b.num = 0 then .nan else if 0 < b.num then .inf else .ninf
  | .num a, .inf => if a.num = 0 then .nan else if 0 < a.num then .inf else .ninf
  | .ninf, .num b => if b.num = 0 then .nan else if 0 < b.num then .ninf else .inf
  | .num a, .ninf => if a.num = 0 then .nan else if 0 < a.num then .ninf else .inf

/-- IEEE natural power (`x ** 0` is 1.0 for every float, NaN included). -/
def npowP : PFloat → ℕ → PFloat
  | .num f, n => .num (f.npow n)
  | _, 0 => .num ⟨1, 1⟩
  | .nan, _ + 1 => .nan
  | .inf, _ + 1 => .inf
  | .ninf, n + 1 => if n % 2 = 0 then .ninf else .inf

/-- IEEE negative integer power `x ** (-n)`: `x ** 0 = 1`; a zero base
gives `inf` (numpy warns but does not raise); an infinite base gives zero;
otherwise the exact reciprocal of the power. -/
def ipowP : PFloat → ℕ → PFloat
  | _, 0 => .num ⟨1, 1⟩
  | .num f, n + 1 => if f.num = 0 then .inf else .num ((f.npow (n + 1)).inv)
  | .nan, _ + 1 => .nan
  | .inf, _ + 1 => .num ⟨0, 1⟩
  | .ninf, _ + 1 => .num ⟨0, 1⟩

end PFloat

/-- One element of the sanitizer's list comprehension:
`None if (isinstance(x, float) and (np.isnan(x) or np.isinf(x))) else x`. -/
def cleanValue (v : PFloat) : Option Frac :=
  match v with
  | .num f => some f
  | .nan => none
  | .inf => none
  | .ninf => none

/-- Model of `clean_array_for_json` from `app.py`: replaces NaN and both infinities
by `None` (here `none`), keeps every finite value unchanged, preserving
order and length. -/
def clean_array_for_json (arr : List PFloat) : List (Option Frac) :=
  arr.map cleanValue

/-- The clamp applied before sanitization,
`np.where(np.abs(y) > 1e6, np.nan, y)` on one element: a finite value of
magnitude strictly above `1e6` becomes NaN; NaN is kept (the numpy
comparison `abs(nan) > 1e6` is False, and `np.where` then keeps the NaN
value); both infinities satisfy the comparison and become NaN. -/
def clampPF (v : PFloat) : PFloat :=
  match v with
  | .num f => if 1000000 * (f.den : ℕ) < f.num.natAbs then .nan else .num f
  | .nan => .nan
  | .inf => .nan
  | .ninf => .nan

/-- Model of `np.where(np.abs(y_vals) > 1e6, np.nan, y_vals)` on a whole array. -/
def clampArr (ys : List PFloat) : List PFloat :=
  ys.map clampPF

/-- Model of `np.linspace a b n`: `n` evenly spaced points from `a` to `b`,
endpoints included; the step is `(b - a) / (n - 1)`. -/
def linspace (a b : Frac) (n : ℕ) : List Frac :=
  (List.range n).map fun i : ℕ =>
    a.add ((b.sub a).mul ⟨(i : ℤ), ⟨max (n - 1) 1, by positivity⟩⟩)

/-! ### Tokenizer and parser: model of sympy `parse_expr` with
`standard_transformations + implicit_multiplication_application` on the
grammar fragment used by the handler. -/

/-- Tokens of the modelled expression grammar. -/
inductive Tok where
  | num (f : Frac)
  | ident (s : String)
  | plus
  | minus
  | star
  | dstar
  | lparen
  | rparen
  deriving DecidableEq

/-- Numeric value of a decimal digit. -/
def digitVal (c : Char) : ℕ :=
  c.toNat - '0'.toNat

/-- Natural number denoted by a list of decimal digits. -/
def natOfDigits (ds : List Char) : ℕ :=
  ds.foldl (fun n c => 10 * n + digitVal c) 0

/-- The fraction denoted by an integer part and a fractional part of a
decimal literal. -/
def fracOfParts (ip fp : List Char) : Frac :=
  ⟨(natOfDigits ip * 10 ^ fp.length + natOfDigits fp : ℕ),
   ⟨10 ^ fp.length, by positivity⟩⟩

/-- Tokenizer, fueled (each step consumes at least one character, so fuel
`length + 1` never runs out). -/
def tokenizeAux : ℕ → List Char → Except String (List Tok)
  | 0, _ => .error "SyntaxError: tokenizer out of fuel"
  | _ + 1, [] => .ok []
  | fuel + 1, c :: cs =>
    if c = ' ' then
      tokenizeAux fuel cs
    else if c.isDigit then
      let intPart := (c :: cs).takeWhile Char.isDigit
      let rest1 := (c :: cs).dropWhile Char.isDigit
      match rest1 with
      | '.' :: cs2 =>
        let fracPart := cs2.takeWhile Char.isDigit
        let rest2 := cs2.dropWhile Char.isDigit
        (tokenizeAux fuel rest2).map fun ts => .num (fracOfParts intPart fracPart) :: ts
      | _ =>
        (tokenizeAux fuel rest1).map fun ts => .num (fracOfParts intPart []) :: ts
    else if c.isAlpha then
      let name := (c :: cs).takeWhile Char.isAlpha
      let rest := (c :: cs).dropWhile Char.isAlpha
      (tokenizeAux fuel rest).map fun ts => .ident (String.mk name) :: ts
    else if c = '+' then (tokenizeAux fuel cs).map fun ts => .plus :: ts
    else if c = '-' then (tokenizeAux fuel cs).map fun ts => .minus :: ts
    else if c = '(' then (tokenizeAux fuel cs).map fun ts => .lparen :: ts
    else if c = ')' then (tokenizeAux fuel cs).map fun ts => .rparen :: ts
    else if c = '*' then
      match cs with
      | '*' :: cs2 => (tokenizeAux fuel cs2).map fun ts => .dstar :: ts
      | _ => (tokenizeAux fuel cs).map fun ts => .star :: ts
    else .error "SyntaxError: unexpected character"

/-- Tokenize a whole string. -/
def tokenize (s : String) : Except String (List Tok) :=
  tokenizeAux (s.toList.length + 1) s.toList

/-- Function names sympy itself interprets; calls of these are outside the
modelled grammar fragment and are rejected by the modelled parser. -/
def knownFuncs : List String :=
  ["sin", "cos", "tan", "exp", "log", "sqrt", "asin", "acos", "atan",
   "sinh", "cosh", "tanh", "Abs"]

/-- Recursive-descent parser, fueled so that recursion is structural and the
definition evaluates inside the kernel.  The second argument is the grammar
level: `0` sum start, `10` sum continuation (accumulator holds the left
operand, subtraction is `Add(a, Mul(-1, b))` as in sympy), `1` product
start, `11` product continuation (an explicit `*` or, by the
`implicit_multiplication_application` transformation, any token that can
start a factor), `2` factor with optional `** n` exponent, `3` atom.  The
`String` argument is the request's variable name: that identifier parses to
`var` (the `local_dict={variable_str: x}` binding), any other plain
identifier to `sym` (sympy auto-symbol), and an identifier applied to a
parenthesized argument to `ufun` (sympy `AppliedUndef`). -/
def parseExprAux : ℕ → ℕ → String → Expr → List Tok → Except String (Expr × List Tok)
  | 0, _, _, _, _ => .error "SyntaxError: expression too deeply nested"
  | fuel + 1, 0, vn, _, ts =>
    (match ts with
     | .minus :: ts1 => do
        let (t, r) ← parseExprAux fuel 1 vn (.const ⟨0, 1⟩) ts1
        parseExprAux fuel 10 vn (.neg t) r
     | _ => do
        let (t, r) ← parseExprAux fuel 1 vn (.const ⟨0, 1⟩) ts
        parseExprAux fuel 10 vn t r)
  | fuel + 1, 10, vn, acc, ts =>
    (match ts with
     | .plus :: ts1 => do
        let (t, r) ← parseExprAux fuel 1 vn (.const ⟨0, 1⟩) ts1
        parseExprAux fuel 10 vn (.add acc t) r
     | .minus :: ts1 => do
        let (t, r) ← parseExprAux fuel 1 vn (.const ⟨0, 1⟩) ts1
        parseExprAux fuel 10 vn (.add acc (.neg t)) r
     | _ => .ok (acc, ts))
  | fuel + 1, 1, vn, _, ts => do
    let (f, r) ← parseExprAux fuel 2 vn (.const ⟨0, 1⟩) ts
    parseExprAux fuel 11 vn f r
  | fuel + 1, 11, vn, acc, ts =>
    (match ts with
     | .star :: ts1 => do
        let (f, r) ← parseExprAux fuel 2 vn (.const ⟨0, 1⟩) ts1
        parseExprAux fuel 11 vn (.mul acc f) r
     | .num _ :: _ => do
        let (f, r) ← parseExprAux fuel 2 vn (.const ⟨0, 1⟩) ts
        parseExprAux fuel 11 vn (.mul acc f) r
     | .ident _ :: _ => do
        let (f, r) ← parseExprAux fuel 2 vn (.const ⟨0, 1⟩) ts
        parseExprAux fuel 11 vn (.mul acc f) r
     | .lparen :: _ => do
        let (f, r) ← parseExprAux fuel 2 vn (.const ⟨0, 1⟩) ts
        parseExprAux fuel 11 vn (.mul acc f) r
     | _ => .ok (acc, ts))
  | fuel + 1, 2, vn, _, ts => do
    let (a, r) ← parseExprAux fuel 3 vn (.const ⟨0, 1⟩) ts
    (match r with
     | .dstar :: r2 =>
       (match r2 with
        | .num q :: r3 =>
          if q.den = 1 ∧ 0 ≤ q.num then .ok (.pow a q.num.toNat, r3)
          else .error "SyntaxError: exponent outside modelled fragment"
        | .minus :: .num q :: r3 =>
          if q.den = 1 ∧ 0 ≤ q.num then
            (if q.num = 0 then .ok (.pow a 0, r3) else .ok (.ipow a q.num.toNat, r3))
          else .error "SyntaxError: exponent outside modelled fragment"
        | [] => .error "SyntaxError: unexpected EOF while parsing"
        | _ => .error "SyntaxError: exponent outside modelled fragment")
     | _ => .ok (a, r))
  | fuel + 1, 3, vn, _, ts =>
    (match ts with
     | .num q :: r => .ok (.const q, r)
     | .ident s :: .lparen :: r =>
       if s = vn then .error "TypeError: Symbol object is not callable"
       else if knownFuncs.contains s then
         .error "NotImplementedError: function call outside modelled fragment"
       else do
         let (arg, r2) ← parseExprAux fuel 0 vn (.const ⟨0, 1⟩) r
         (match r2 with
          | .rparen :: r3 => .ok (.ufun s arg, r3)
          | _ => .error "SyntaxError: expected closing parenthesis")
     | .ident s :: r => .ok (if s = vn then .var else .sym s, r)
     | .lparen :: r => do
       let (e, r2) ← parseExprAux fuel 0 vn (.const ⟨0, 1⟩) r
       (match r2 with
        | .rparen :: r3 => .ok (e, r3)
        | _ => .error "SyntaxError: expected closing parenthesis")
     | .minus :: r => do
       let (f, r2) ← parseExprAux fuel 2 vn (.const ⟨0, 1⟩) r
       .ok (.neg f, r2)
     | [] => .error "SyntaxError: unexpected EOF while parsing"
     | _ => .error "SyntaxError: invalid syntax")
  | _ + 1, _, _, _, _ => .error "SyntaxError: impossible parser level"

/-- Model of `parse_expr(function_str, local_dict={variable_str: x},
transformations=...)` from `app.py`: tokenize, parse a full expression, and
require all input consumed.  `.error` models the call raising (the message
plays the role of `str(e)`). -/
def parse_expr (s : String) (vn : String) : Except String Expr :=
  match tokenize s with
  | .error e => .error e
  | .ok ts =>
    match parseExprAux (5 * ts.length + 10) 0 vn (.const ⟨0, 1⟩) ts with
    | .error e => .error e
    | .ok (e, []) => .ok e
    | .ok (_, _ :: _) => .error "SyntaxError: invalid syntax"

/-- Model of Python `float(s)` applied to a bound string: optional
surrounding spaces, optional sign, decimal digits with an optional
fractional part.  `none` models `float` raising `ValueError`. -/
def pyFloat (s : String) : Option Frac :=
  let cs := ((s.toList.dropWhile (· = ' ')).reverse.dropWhile (· = ' ')).reverse
  let signed : Bool × List Char :=
    match cs with
    | '-' :: r => (true, r)
    | '+' :: r => (false, r)
    | _ => (false, cs)
  let ip := signed.2.takeWhile Char.isDigit
  let r1 := signed.2.dropWhile Char.isDigit
  let finish : List Char → List Char → Option Frac := fun ip fp =>
    some (if signed.1 then (fracOfParts ip fp).neg else fracOfParts ip fp)
  match r1 with
  | [] => if ip = [] then none else finish ip []
  | '.' :: r2 =>
    let fp := r2.takeWhile Char.isDigit
    let r3 := r2.dropWhile Char.isDigit
    if r3 = [] ∧ (ip ≠ [] ∨ fp ≠ []) then finish ip fp else none
  | _ => none

/-! ### The symbolic engine on the embedded AST. -/

/-- The constant value of an expression that is literally a constant
(sympy `is_Number` on the fragment). -/
def constQ : Expr → Option Frac
  | .const c => some c
  | _ => none

/-! ### Dense polynomials (coefficient lists, constant term first): the
normal form through which `sp.integrate` handles polynomial arithmetic,
including products of non-constant factors such as `(x+1)*(x+2)`. -/

/-- Polynomial addition. -/
def pAdd : List Frac → List Frac → List Frac
  | [], q => q
  | p, [] => p
  | a :: p, b :: q => a.add b :: pAdd p q

/-- Polynomial negation. -/
def pNeg (p : List Frac) : List Frac :=
  p.map Frac.neg

/-- Multiplication by a scalar. -/
def pSmul (c : Frac) (p : List Frac) : List Frac :=
  p.map c.mul

/-- Polynomial multiplication. -/
def pMul : List Frac → List Frac → List Frac
  | [], _ => []
  | a :: p, q => pAdd (pSmul a q) (⟨0, 1⟩ :: pMul p q)

/-- Polynomial power. -/
def pPow (p : List Frac) : ℕ → List Frac
  | 0 => [⟨1, 1⟩]
  | n + 1 => pMul p (pPow p n)

/-- Coefficients of the antiderivative, shifted one degree up: the
coefficient of degree `k + i` becomes `c_i / (k + i + 1)`. -/
def pintAux : ℕ → List Frac → List Frac
  | _, [] => []
  | k, c :: p => c.mul ⟨1, ⟨k + 1, k.succ_pos⟩⟩ :: pintAux (k + 1) p

/-- Antiderivative of a polynomial (zero constant term, sympy
convention). -/
def pint (p : List Frac) : List Frac :=
  ⟨0, 1⟩ :: pintAux 0 p

/-- Read an expression back from a coefficient list, in Horner form
`c + x * rest` (denotationally equal to sympy's expanded form). -/
def ofPoly : List Frac → Expr
  | [] => .const ⟨0, 1⟩
  | c :: p => .add (.const c) (.mul .var (ofPoly p))

/-- Convert an expression to its dense polynomial coefficients; `none`
on any non-polynomial node. -/
def toPoly : Expr → Option (List Frac)
  | .const c => some [c]
  | .var => some [⟨0, 1⟩, ⟨1, 1⟩]
  | .add a b =>
    (match toPoly a, toPoly b with
     | some p, some q => some (pAdd p q)
     | _, _ => none)
  | .neg a =>
    (match toPoly a with
     | some p => some (pNeg p)
     | none => none)
  | .mul a b =>
    (match toPoly a, toPoly b with
     | some p, some q => some (pMul p q)
     | _, _ => none)
  | .pow a n =>
    (match toPoly a with
     | some p => some (pPow p n)
     | none => none)
  | _ => none

/-- Holds iff the expression mentions the integration variable.  A
variable-free expression is the case where `sp.lambdify` returns a plain
scalar instead of an array: `np.where` then yields a 0-d array, its
`tolist()` is a bare float, and the comprehension in
`clean_array_for_json` raises TypeError, killing the series (this is the
failure C2's counterexample exercises).  The nullary trigonometric and
exponential nodes stand for `sin x`, `cos x`, `exp x` and do mention the
variable. -/
def usesVar : Expr → Bool
  | .var => true
  | .add a b => usesVar a || usesVar b
  | .neg a => usesVar a
  | .mul a b => usesVar a || usesVar b
  | .pow a _ => usesVar a
  | .ipow a _ => usesVar a
  | .sinx => true
  | .cosx => true
  | .expx => true
  | .ufun _ a => usesVar a
  | .intg a => usesVar a
  | _ => false

/-- Model of `sp.integrate(e, x)` on the fragment: polynomial shapes
(including products of non-constant factors and powers of polynomials)
integrate through the dense-coefficient antiderivative; sums and negations
termwise; a literal constant factor is pulled out; `sin/cos/exp` of the
variable integrate directly; a foreign symbol is treated as a constant.
In every remaining case (undefined functions, negative powers, nodes the
fragment leaves uninterpreted) the model returns an unevaluated
`Integral(e, x)`, the `intg` node.  (A partiality of the model: sympy also
integrates e.g. `x ** (-2)` to `-1/x`; no claim depends on that case.)  No
integration constant is appended (sympy convention). -/
def integrateE : Expr → Expr
  | .const c => .mul (.const c) .var
  | .var => .mul (.const ⟨1, 2⟩) (.pow .var 2)
  | .sym s => .mul (.sym s) .var
  | .add a b => .add (integrateE a) (integrateE b)
  | .neg a => .neg (integrateE a)
  | .mul a b =>
    (match constQ a with
     | some c => .mul (.const c) (integrateE b)
     | none =>
       match constQ b with
       | some c => .mul (.const c) (integrateE a)
       | none =>
         match toPoly (.mul a b) with
         | some p => ofPoly (pint p)
         | none => .intg (.mul a b))
  | .pow a n =>
    (match toPoly (.pow a n) with
     | some p => ofPoly (pint p)
     | none => .intg (.pow a n))
  | .ipow a n => .intg (.ipow a n)
  | .sinx => .neg .cosx
  | .cosx => .sinx
  | .expx => .expx
  | .ufun f a => .intg (.ufun f a)
  | .intg a => .intg (.intg a)

/-- Model of `sp.diff(e, x)`: the symbolic derivative. -/
def derivE : Expr → Expr
  | .const _ => .const ⟨0, 1⟩
  | .var => .const ⟨1, 1⟩
  | .sym _ => .const ⟨0, 1⟩
  | .add a b => .add (derivE a) (derivE b)
  | .neg a => .neg (derivE a)
  | .mul a b => .add (.mul (derivE a) b) (.mul a (derivE b))
  | .pow a n => .mul (.mul (.const (.ofNat n)) (.pow a (n - 1))) (derivE a)
  | .ipow a n => .mul (.mul (.const ⟨-(n : ℤ), 1⟩) (.ipow a (n + 1))) (derivE a)
  | .sinx => .cosx
  | .cosx => .neg .sinx
  | .expx => .expx
  | .ufun _ _ => .const ⟨0, 1⟩
  | .intg _ => .const ⟨0, 1⟩

/-- Holds (`true`) iff the expression contains no unevaluated-integral node: the
shape on which symbolic integration fully succeeded. -/
def noIntg : Expr → Bool
  | .intg _ => false
  | .add a b => noIntg a && noIntg b
  | .neg a => noIntg a
  | .mul a b => noIntg a && noIntg b
  | .pow a _ => noIntg a
  | .ipow a _ => noIntg a
  | .ufun _ a => noIntg a
  | _ => true

/-- Holds iff the expression contains no negative-exponent power: away
from these nodes the real denotation is differentiable everywhere, which
the derivative lemmas require. -/
def noIpow : Expr → Bool
  | .ipow _ _ => false
  | .add a b => noIpow a && noIpow b
  | .neg a => noIpow a
  | .mul a b => noIpow a && noIpow b
  | .pow a _ => noIpow a
  | .ufun _ a => noIpow a
  | .intg a => noIpow a
  | _ => true

/-- Evaluation of the numeric closure produced by
`sp.lambdify(x, e, modules=['numpy'])` at one point: exact fraction
arithmetic extended with the IEEE special values (a negative power of a
zero base gives `inf`, not an exception).  `none` models the closure
raising when called (`NameError` for a foreign symbol or an undefined
function name, an error for an unevaluated `Integral` object); the
trigonometric/exponential nodes are not reachable from the modelled parser
and are left outside the exact fragment. -/
def evalN : Expr → Frac → Option PFloat
  | .const c, _ => some (.num c)
  | .var, t => some (.num t)
  | .sym _, _ => none
  | .add a b, t =>
    (match evalN a t, evalN b t with
     | some u, some v => some (u.addP v)
     | _, _ => none)
  | .neg a, t =>
    (match evalN a t with
     | some u => some u.negP
     | none => none)
  | .mul a b, t =>
    (match evalN a t, evalN b t with
     | some u, some v => some (u.mulP v)
     | _, _ => none)
  | .pow a n, t =>
    (match evalN a t with
     | some u => some (u.npowP n)
     | none => none)
  | .ipow a n, t =>
    (match evalN a t with
     | some u => some (u.ipowP n)
     | none => none)
  | .sinx, _ => none
  | .cosx, _ => none
  | .expx, _ => none
  | .ufun _ _, _ => none
  | .intg _, _ => none

/-- Evaluation of the lambdified closure on a whole sample array: the call
either returns the full array or raises (`none`), never a partial array. -/
def seriesEval (f : Expr) : List Frac → Option (List PFloat)
  | [] => some []
  | x :: xs =>
    match evalN f x, seriesEval f xs with
    | some y, some ys => some (y :: ys)
    | _, _ => none

/-! ### The request handler. -/

/-- One plot series as assembled in `app.py`:
`{'x': clean_array_for_json(...), 'y': clean_array_for_json(...)}`. -/
structure Points where
  x : List (Option Frac)
  y : List (Option Frac)
  deriving DecidableEq

/-- The JSON request body.  `variableName` models the `variable` field
(that word is a Lean keyword); bounds are carried as the strings Python
`float` receives. -/
structure CalcRequest where
  function : Option String := none
  variableName : Option String := none
  lower_limit : Option String := none
  upper_limit : Option String := none
  deriving DecidableEq

/-- The JSON response body.  The antiderivative is carried as its symbolic
expression, standing for both textual renderings (`sp.latex` and `str`);
`definite_value` is a floating point value, so a non-finite conversion
result (IEEE infinity or NaN) is representable and serialized as such;
`http_status` records that Flask serves both branches with status 200. -/
structure CalcResponse where
  success : Bool
  integral : Option Expr
  function_points : Option Points
  integral_points : Option Points
  definite_value : Option PFloat
  area_points : Option Points
  error : Option String
  http_status : ℕ
  deriving DecidableEq

/-- Build one plot series, modelling the whole guarded block: call the
closure (for a variable-free expression the call returns a scalar and the
sanitizer comprehension raises, see `usesVar`; an unevaluable node makes
the call itself raise), clamp magnitudes above `1e6` to NaN, then sanitize
both arrays for JSON.  Any failure drops the whole series. -/
def mkSeries (f : Expr) (xs : List Frac) : Option Points :=
  match usesVar f, seriesEval f xs with
  | true, some ys =>
    some { x := clean_array_for_json (xs.map .num),
           y := clean_array_for_json (clampArr ys) }
  | _, _ => none

/-- Modelled singular definite integrals: sympy detects the pole of
`x ** (-n)` (`n` at least 1) at 0; when 0 lies between two distinct bounds
the integral diverges: for even `n` (positive integrand) the result is
`oo` (`-oo` with reversed bounds), for odd `n` the two-sided result is
`nan`.  Python `float()` maps these symbolic values to the IEEE
`inf`/`-inf`/`nan` values without raising. -/
def ipowSing (f : Expr) (lower upper : Frac) : Option PFloat :=
  match f with
  | .ipow .var (n + 1) =>
    if ((lower.num ≤ 0 ∧ 0 ≤ upper.num) ∨ (upper.num ≤ 0 ∧ 0 ≤ lower.num)) ∧
        ¬(lower.num * ((upper.den : ℕ) : ℤ) = upper.num * ((lower.den : ℕ) : ℤ)) then
      if (n + 1) % 2 = 0 then
        (if lower.num * ((upper.den : ℕ) : ℤ) ≤ upper.num * ((lower.den : ℕ) : ℤ) then
          some .inf
         else some .ninf)
      else some .nan
    else none
  | _ => none

/-- The generic conversion `float(sp.integrate(function, (x, lower,
upper)))`: on the fragment where the antiderivative has a numeric closure
and no interval singularity this equals `F(upper) - F(lower)`; `none`
models the conversion raising (unevaluated `Integral`, symbolic
leftovers such as a foreign symbol). -/
def definiteGeneric (f : Expr) (lower upper : Frac) : Option PFloat :=
  match evalN (integrateE f) upper, evalN (integrateE f) lower with
  | some (.num fb), some (.num fa) => some (.num (fb.sub fa))
  | _, _ => none

/-- Model of `float(sp.integrate(function, (x, lower, upper)))`: the
singular cases produce IEEE non-finite values (which `float()` returns
without raising), the rest goes through the generic conversion. -/
def definiteEval (f : Expr) (lower upper : Frac) : Option PFloat :=
  match ipowSing f lower upper with
  | some v => some v
  | none => definiteGeneric f lower upper

/-- The definite-integral block of `calculate` (lines 140-166 of `app.py`):
runs only when both limits are supplied; converts them with `float`,
computes the definite value (possibly an IEEE infinity), then samples 100
area points.  Any exception is swallowed (`except: pass`), keeping
whatever was assigned before it was raised: a failure before the
`definite_value` assignment leaves both results `None`; a failure in the
area sampling keeps the already assigned definite value (this is how a
variable-free integrand yields a definite value with a null area
series). -/
def definiteBranchF (f : Expr) (ol ou : Option Frac) : Option PFloat × Option Points :=
  match ol, ou with
  | some lower, some upper =>
    (match definiteEval f lower upper with
     | some dv => (some dv, mkSeries f (linspace lower upper 100))
     | none => (none, none))
  | _, _ => (none, none)

def definiteBranch (f : Expr) (ll ul : Option String) : Option PFloat × Option Points :=
  match ll, ul with
  | some lstr, some ustr => definiteBranchF f (pyFloat lstr) (pyFloat ustr)
  | _, _ => (none, none)

/-- The `/calculate` request handler from `app.py`: defaults (`function`
missing becomes `""`, `variable` missing becomes `"x"`), parse, integrate,
sample both series on 200 points of `[-10, 10]`, run the definite block,
assemble the success payload; any parse/setup exception yields
`{success: false, error: str(e)}`.  Flask returns HTTP 200 on both
branches. -/
def calculate (req : CalcRequest) : CalcResponse :=
  match parse_expr (req.function.getD "") (req.variableName.getD "x") with
  | .error msg =>
    { success := false
      integral := none
      function_points := none
      integral_points := none
      definite_value := none
      area_points := none
      error := some msg
      http_status := 200 }
  | .ok f =>
    { success := true
      integral := some (integrateE f)
      function_points := mkSeries f (linspace ⟨-10, 1⟩ ⟨10, 1⟩ 200)
      integral_points := mkSeries (integrateE f) (linspace ⟨-10, 1⟩ ⟨10, 1⟩ 200)
      definite_value := (definiteBranch f req.lower_limit req.upper_limit).1
      area_points := (definiteBranch f req.lower_limit req.upper_limit).2
      error := none
      http_status := 200 }

/-- Real-number denotation of an expression; the nodes with no numeric
meaning (foreign symbols, undefined functions, unevaluated integrals)
denote `0` and are excluded by hypotheses wherever their value matters. -/
noncomputable def evalR : Expr → ℝ → ℝ
  | .const c, _ => c.toR
  | .var, t => t
  | .sym _, _ => 0
  | .add a b, t => evalR a t + evalR b t
  | .neg a, t => -(evalR a t)
  | .mul a b, t => evalR a t * evalR b t
  | .pow a n, t => (evalR a t) ^ n
  | .ipow a n, t => ((evalR a t) ^ n)⁻¹
  | .sinx, t => Real.sin t
  | .cosx, t => Real.cos t
  | .expx, t => Real.exp t
  | .ufun _ _, _ => 0
  | .intg _, _ => 0

/-! ### Arithmetic correctness of the fraction idealization. -/

namespace Frac

theorem den_cast_pos (f : Frac) : (0 : ℝ) < ((f.den : ℕ) : ℝ) := by
  exact_mod_cast f.den.pos

theorem den_cast_ne (f : Frac) : ((f.den : ℕ) : ℝ) ≠ 0 :=
  ne_of_gt f.den_cast_pos

theorem toR_add (a b : Frac) : (a.add b).toR = a.toR + b.toR := by
  have ha := a.den_cast_ne
  have hb := b.den_cast_ne
  simp only [toR, add, PNat.mul_coe]
  push_cast
  field_simp

theorem toR_neg (a : Frac) : a.neg.toR = -a.toR := by
  simp only [toR, neg]
  push_cast
  ring

theorem toR_sub (a b : Frac) : (a.sub b).toR = a.toR - b.toR := by
  rw [sub, toR_add, toR_neg]
  ring

theorem toR_mul (a b : Frac) : (a.mul b).toR = a.toR * b.toR := by
  have ha := a.den_cast_ne
  have hb := b.den_cast_ne
  simp only [toR, mul, PNat.mul_coe]
  push_cast
  field_simp

theorem toR_npow (a : Frac) (n : ℕ) : (a.npow n).toR = a.toR ^ n := by
  simp only [toR, npow, PNat.pow_coe]
  push_cast
  rw [div_pow]

theorem toR_ofNat (n : ℕ) : (ofNat n).toR = (n : ℝ) := by
  simp [toR, ofNat]

theorem toR_mk (z : ℤ) (d : ℕ+) : (Frac.mk z d).toR = (z : ℝ) / ((d : ℕ) : ℝ) := rfl

/-- The clamp comparison decides exactly whether the real magnitude exceeds
`1e6`. -/
theorem clamp_test_iff (f : Frac) :
    (1000000 * (f.den : ℕ) < f.num.natAbs) ↔ 1000000 < |f.toR| := by
  have hpos := f.den_cast_pos
  rw [toR, abs_div, abs_of_pos hpos, lt_div_iff₀ hpos]
  rw [show |(f.num : ℝ)| = ((f.num.natAbs : ℕ) : ℝ) by
    rw [Int.cast_natAbs]; push_cast; ring_nf]
  constructor
  · intro h
    calc (1000000 : ℝ) * ((f.den : ℕ) : ℝ) = ((1000000 * (f.den : ℕ) : ℕ) : ℝ) := by push_cast; ring
    _ < ((f.num.natAbs : ℕ) : ℝ) := by exact_mod_cast h
  · intro h
    have : ((1000000 * (f.den : ℕ) : ℕ) : ℝ) < ((f.num.natAbs : ℕ) : ℝ) := by
      calc ((1000000 * (f.den : ℕ) : ℕ) : ℝ) = (1000000 : ℝ) * ((f.den : ℕ) : ℝ) := by push_cast; ring
      _ < _ := h
    exact_mod_cast this

end Frac

/-! ### Real values of the distinguished fraction literals. -/

theorem fracZero_toR : (⟨0, 1⟩ : Frac).toR = 0 := by
  rw [Frac.toR_mk]
  norm_num

theorem fracOne_toR : (⟨1, 1⟩ : Frac).toR = 1 := by
  rw [Frac.toR_mk]
  norm_num

/-! ### Denotation of dense polynomials and soundness of the polynomial
arithmetic through which the modelled `sp.integrate` handles products and
powers. -/

/-- Real value of a coefficient list at a point (Horner evaluation). -/
noncomputable def pEvalR (p : List Frac) (t : ℝ) : ℝ :=
  p.foldr (fun c acc => c.toR + t * acc) 0

theorem pAdd_nil (q : List Frac) : pAdd [] q = q := by
  cases q <;> rfl

theorem pAdd_sound : ∀ (p q : List Frac) (t : ℝ),
    pEvalR (pAdd p q) t = pEvalR p t + pEvalR q t := by
  intro p
  induction p with
  | nil =>
    intro q t
    rw [pAdd_nil q]
    show pEvalR q t = 0 + pEvalR q t
    ring
  | cons a p ih =>
    intro q t
    cases q with
    | nil =>
      show a.toR + t * pEvalR p t = (a.toR + t * pEvalR p t) + 0
      ring
    | cons b q2 =>
      show (a.add b).toR + t * pEvalR (pAdd p q2) t
          = (a.toR + t * pEvalR p t) + (b.toR + t * pEvalR q2 t)
      rw [Frac.toR_add, ih q2 t]
      ring

theorem pNeg_sound : ∀ (p : List Frac) (t : ℝ), pEvalR (pNeg p) t = -pEvalR p t := by
  intro p
  induction p with
  | nil =>
    intro t
    show (0 : ℝ) = -0
    ring
  | cons a p ih =>
    intro t
    show (Frac.neg a).toR + t * pEvalR (pNeg p) t = -(a.toR + t * pEvalR p t)
    rw [Frac.toR_neg, ih t]
    ring

theorem pSmul_sound : ∀ (c : Frac) (p : List Frac) (t : ℝ),
    pEvalR (pSmul c p) t = c.toR * pEvalR p t := by
  intro c p
  induction p with
  | nil =>
    intro t
    show (0 : ℝ) = c.toR * 0
    ring
  | cons a p ih =>
    intro t
    show (Frac.mul c a).toR + t * pEvalR (pSmul c p) t = c.toR * (a.toR + t * pEvalR p t)
    rw [Frac.toR_mul, ih t]
    ring

theorem pMul_sound : ∀ (p q : List Frac) (t : ℝ),
    pEvalR (pMul p q) t = pEvalR p t * pEvalR q t := by
  intro p
  induction p with
  | nil =>
    intro q t
    show (0 : ℝ) = 0 * pEvalR q t
    ring
  | cons a p ih =>
    intro q t
    show pEvalR (pAdd (pSmul a q) (⟨0, 1⟩ :: pMul p q)) t
        = (a.toR + t * pEvalR p t) * pEvalR q t
    rw [pAdd_sound, pSmul_sound]
    show a.toR * pEvalR q t + ((⟨0, 1⟩ : Frac).toR + t * pEvalR (pMul p q) t) = _
    rw [ih q t, fracZero_toR]
    ring

theorem pPow_sound : ∀ (p : List Frac) (n : ℕ) (t : ℝ),
    pEvalR (pPow p n) t = pEvalR p t ^ n := by
  intro p n
  induction n with
  | zero =>
    intro t
    show (⟨1, 1⟩ : Frac).toR + t * 0 = pEvalR p t ^ 0
    rw [fracOne_toR]
    ring
  | succ m ih =>
    intro t
    show pEvalR (pMul p (pPow p m)) t = pEvalR p t ^ (m + 1)
    rw [pMul_sound, ih t]
    ring

theorem toPoly_sound : ∀ (e : Expr) (p : List Frac), toPoly e = some p →
    ∀ t : ℝ, evalR e t = pEvalR p t := by
  intro e
  induction e with
  | const c =>
    intro p h t
    simp only [toPoly, Option.some.injEq] at h
    subst h
    show c.toR = c.toR + t * 0
    ring
  | var =>
    intro p h t
    simp only [toPoly, Option.some.injEq] at h
    subst h
    show t = (⟨0, 1⟩ : Frac).toR + t * ((⟨1, 1⟩ : Frac).toR + t * 0)
    rw [fracZero_toR, fracOne_toR]
    ring
  | sym s => intro p h t; simp [toPoly] at h
  | add a b iha ihb =>
    intro p h t
    simp only [toPoly] at h
    cases ha : toPoly a with
    | none => rw [ha] at h; exact absurd h (by simp)
    | some pa =>
      cases hb : toPoly b with
      | none => rw [ha, hb] at h; exact absurd h (by simp)
      | some pb =>
        rw [ha, hb] at h
        simp only [Option.some.injEq] at h
        subst h
        show evalR a t + evalR b t = pEvalR (pAdd pa pb) t
        rw [pAdd_sound, iha pa ha t, ihb pb hb t]
  | neg a iha =>
    intro p h t
    simp only [toPoly] at h
    cases ha : toPoly a with
    | none => rw [ha] at h; exact absurd h (by simp)
    | some pa =>
      rw [ha] at h
      simp only [Option.some.injEq] at h
      subst h
      show -(evalR a t) = pEvalR (pNeg pa) t
      rw [pNeg_sound, iha pa ha t]
  | mul a b iha ihb =>
    intro p h t
    simp only [toPoly] at h
    cases ha : toPoly a with
    | none => rw [ha] at h; exact absurd h (by simp)
    | some pa =>
      cases hb : toPoly b with
      | none => rw [ha, hb] at h; exact absurd h (by simp)
      | some pb =>
        rw [ha, hb] at h
        simp only [Option.some.injEq] at h
        subst h
        show evalR a t * evalR b t = pEvalR (pMul pa pb) t
        rw [pMul_sound, iha pa ha t, ihb pb hb t]
  | pow a n iha =>
    intro p h t
    simp only [toPoly] at h
    cases ha : toPoly a with
    | none => rw [ha] at h; exact absurd h (by simp)
    | some pa =>
      rw [ha] at h
      simp only [Option.some.injEq] at h
      subst h
      show (evalR a t) ^ n = pEvalR (pPow pa n) t
      rw [pPow_sound, iha pa ha t]
  | ipow a n iha => intro p h t; simp [toPoly] at h
  | sinx => intro p h t; simp [toPoly] at h
  | cosx => intro p h t; simp [toPoly] at h
  | expx => intro p h t; simp [toPoly] at h
  | ufun g a iha => intro p h t; simp [toPoly] at h
  | intg a iha => intro p h t; simp [toPoly] at h

theorem ofPoly_sound : ∀ (p : List Frac) (t : ℝ), evalR (ofPoly p) t = pEvalR p t := by
  intro p
  induction p with
  | nil =>
    intro t
    show (⟨0, 1⟩ : Frac).toR = (0 : ℝ)
    exact fracZero_toR
  | cons c p ih =>
    intro t
    show c.toR + t * evalR (ofPoly p) t = c.toR + t * pEvalR p t
    rw [ih t]

theorem ofPoly_noIntg : ∀ p : List Frac, noIntg (ofPoly p) = true := by
  intro p
  induction p with
  | nil => rfl
  | cons c p ih =>
    show (noIntg (.const c) && (noIntg .var && noIntg (ofPoly p))) = true
    rw [ih]
    rfl

theorem ofPoly_noIpow : ∀ p : List Frac, noIpow (ofPoly p) = true := by
  intro p
  induction p with
  | nil => rfl
  | cons c p ih =>
    show (noIpow (.const c) && (noIpow .var && noIpow (ofPoly p))) = true
    rw [ih]
    rfl

theorem toPoly_noIpow : ∀ (e : Expr) (p : List Frac), toPoly e = some p →
    noIpow e = true := by
  intro e
  induction e with
  | const c => intro p _; rfl
  | var => intro p _; rfl
  | sym s => intro p h; simp [toPoly] at h
  | add a b iha ihb =>
    intro p h
    simp only [toPoly] at h
    cases ha : toPoly a with
    | none => rw [ha] at h; exact absurd h (by simp)
    | some pa =>
      cases hb : toPoly b with
      | none => rw [ha, hb] at h; exact absurd h (by simp)
      | some pb =>
        show (noIpow a && noIpow b) = true
        rw [iha pa ha, ihb pb hb]
        rfl
  | neg a iha =>
    intro p h
    simp only [toPoly] at h
    cases ha : toPoly a with
    | none => rw [ha] at h; exact absurd h (by simp)
    | some pa => exact iha pa ha
  | mul a b iha ihb =>
    intro p h
    simp only [toPoly] at h
    cases ha : toPoly a with
    | none => rw [ha] at h; exact absurd h (by simp)
    | some pa =>
      cases hb : toPoly b with
      | none => rw [ha, hb] at h; exact absurd h (by simp)
      | some pb =>
        show (noIpow a && noIpow b) = true
        rw [iha pa ha, ihb pb hb]
        rfl
  | pow a n iha =>
    intro p h
    simp only [toPoly] at h
    cases ha : toPoly a with
    | none => rw [ha] at h; exact absurd h (by simp)
    | some pa => exact iha pa ha
  | ipow a n iha => intro p h; simp [toPoly] at h
  | sinx => intro p h; simp [toPoly] at h
  | cosx => intro p h; simp [toPoly] at h
  | expx => intro p h; simp [toPoly] at h
  | ufun g a iha => intro p h; simp [toPoly] at h
  | intg a iha => intro p h; simp [toPoly] at h

/-! ### Soundness of the numeric closure with respect to the real
denotation. -/

/-- The IEEE natural power of a finite value is the exact fraction power
(the equation holds for every exponent, finite bases are matched
first). -/
theorem npowP_num (g : Frac) (n : ℕ) : PFloat.npowP (.num g) n = .num (g.npow n) := by
  cases n <;> rfl

/-- On expressions without negative-exponent powers, a successful numeric
evaluation returns a finite number whose real value is the denotation at
the sample point. -/
theorem evalN_sound (e : Expr) :
    ∀ t : Frac, noIpow e = true → ∀ v : PFloat, evalN e t = some v →
      ∃ g : Frac, v = .num g ∧ g.toR = evalR e t.toR := by
  induction e with
  | const c =>
    intro t _ v h
    simp only [evalN, Option.some.injEq] at h
    exact ⟨c, h.symm, rfl⟩
  | var =>
    intro t _ v h
    simp only [evalN, Option.some.injEq] at h
    exact ⟨t, h.symm, rfl⟩
  | sym s => intro t _ v h; simp [evalN] at h
  | add a b iha ihb =>
    intro t hni v h
    have hs : (noIpow a && noIpow b) = true := hni
    have hsplit := Bool.and_eq_true_iff.mp hs
    simp only [evalN] at h
    cases ha : evalN a t with
    | none => rw [ha] at h; exact absurd h (by simp)
    | some u =>
      cases hb : evalN b t with
      | none => rw [ha, hb] at h; exact absurd h (by simp)
      | some w =>
        rw [ha, hb] at h
        simp only [Option.some.injEq] at h
        obtain ⟨gu, rfl, hgu⟩ := iha t hsplit.1 u ha
        obtain ⟨gw, rfl, hgw⟩ := ihb t hsplit.2 w hb
        refine ⟨gu.add gw, h.symm, ?_⟩
        show (gu.add gw).toR = evalR a t.toR + evalR b t.toR
        rw [Frac.toR_add, hgu, hgw]
  | neg a iha =>
    intro t hni v h
    simp only [evalN] at h
    cases ha : evalN a t with
    | none => rw [ha] at h; exact absurd h (by simp)
    | some u =>
      rw [ha] at h
      simp only [Option.some.injEq] at h
      obtain ⟨gu, rfl, hgu⟩ := iha t hni u ha
      refine ⟨gu.neg, h.symm, ?_⟩
      show gu.neg.toR = -(evalR a t.toR)
      rw [Frac.toR_neg, hgu]
  | mul a b iha ihb =>
    intro t hni v h
    have hs : (noIpow a && noIpow b) = true := hni
    have hsplit := Bool.and_eq_true_iff.mp hs
    simp only [evalN] at h
    cases ha : evalN a t with
    | none => rw [ha] at h; exact absurd h (by simp)
    | some u =>
      cases hb : evalN b t with
      | none => rw [ha, hb] at h; exact absurd h (by simp)
      | some w =>
        rw [ha, hb] at h
        simp only [Option.some.injEq] at h
        obtain ⟨gu, rfl, hgu⟩ := iha t hsplit.1 u ha
        obtain ⟨gw, rfl, hgw⟩ := ihb t hsplit.2 w hb
        refine ⟨gu.mul gw, h.symm, ?_⟩
        show (gu.mul gw).toR = evalR a t.toR * evalR b t.toR
        rw [Frac.toR_mul, hgu, hgw]
  | pow a n iha =>
    intro t hni v h
    simp only [evalN] at h
    cases ha : evalN a t with
    | none => rw [ha] at h; exact absurd h (by simp)
    | some u =>
      rw [ha] at h
      simp only [Option.some.injEq] at h
      obtain ⟨gu, rfl, hgu⟩ := iha t hni u ha
      rw [npowP_num] at h
      refine ⟨gu.npow n, h.symm, ?_⟩
      show (gu.npow n).toR = (evalR a t.toR) ^ n
      rw [Frac.toR_npow, hgu]
  | ipow a n iha => intro t hni v h; simp [noIpow] at hni
  | sinx => intro t _ v h; simp [evalN] at h
  | cosx => intro t _ v h; simp [evalN] at h
  | expx => intro t _ v h; simp [evalN] at h
  | ufun g a iha => intro t _ v h; simp [evalN] at h
  | intg a iha => intro t _ v h; simp [evalN] at h

/-- A successful numeric evaluation certifies that the expression contains
no unevaluated-integral node. -/
theorem evalN_noIntg (e : Expr) :
    ∀ (t : Frac) (v : PFloat), evalN e t = some v → noIntg e = true := by
  induction e with
  | const c => intro t v _; rfl
  | var => intro t v _; rfl
  | sym s => intro t v h; simp [evalN] at h
  | add a b iha ihb =>
    intro t v h
    simp only [evalN] at h
    cases ha : evalN a t with
    | none => rw [ha] at h; exact absurd h (by simp)
    | some u =>
      cases hb : evalN b t with
      | none => rw [ha, hb] at h; exact absurd h (by simp)
      | some w =>
        show (noIntg a && noIntg b) = true
        rw [iha t u ha, ihb t w hb]
        rfl
  | neg a iha =>
    intro t v h
    simp only [evalN] at h
    cases ha : evalN a t with
    | none => rw [ha] at h; exact absurd h (by simp)
    | some u => exact iha t u ha
  | mul a b iha ihb =>
    intro t v h
    simp only [evalN] at h
    cases ha : evalN a t with
    | none => rw [ha] at h; exact absurd h (by simp)
    | some u =>
      cases hb : evalN b t with
      | none => rw [ha, hb] at h; exact absurd h (by simp)
      | some w =>
        show (noIntg a && noIntg b) = true
        rw [iha t u ha, ihb t w hb]
        rfl
  | pow a n iha =>
    intro t v h
    simp only [evalN] at h
    cases ha : evalN a t with
    | none => rw [ha] at h; exact absurd h (by simp)
    | some u => exact iha t u ha
  | ipow a n iha =>
    intro t v h
    simp only [evalN] at h
    cases ha : evalN a t with
    | none => rw [ha] at h; exact absurd h (by simp)
    | some u =>
      show noIntg a = true
      exact iha t u ha
  | sinx => intro t v h; simp [evalN] at h
  | cosx => intro t v h; simp [evalN] at h
  | expx => intro t v h; simp [evalN] at h
  | ufun g a iha => intro t v h; simp [evalN] at h
  | intg a iha => intro t v h; simp [evalN] at h

/-- Away from negative-exponent powers every embedded expression denotes a
continuous real function. -/
theorem evalR_continuous : ∀ e : Expr, noIpow e = true → Continuous (evalR e) := by
  intro e
  induction e with
  | const c => intro _; exact continuous_const
  | var => intro _; exact continuous_id
  | sym s => intro _; exact continuous_const
  | add a b iha ihb =>
    intro hni
    have hs : (noIpow a && noIpow b) = true := hni
    have hsplit := Bool.and_eq_true_iff.mp hs
    have h : evalR (.add a b) = fun t => evalR a t + evalR b t := funext fun t => rfl
    rw [h]
    exact (iha hsplit.1).add (ihb hsplit.2)
  | neg a iha =>
    intro hni
    have h : evalR (.neg a) = fun t => -(evalR a t) := funext fun t => rfl
    rw [h]
    exact (iha hni).neg
  | mul a b iha ihb =>
    intro hni
    have hs : (noIpow a && noIpow b) = true := hni
    have hsplit := Bool.and_eq_true_iff.mp hs
    have h : evalR (.mul a b) = fun t => evalR a t * evalR b t := funext fun t => rfl
    rw [h]
    exact (iha hsplit.1).mul (ihb hsplit.2)
  | pow a n iha =>
    intro hni
    have h : evalR (.pow a n) = fun t => (evalR a t) ^ n := funext fun t => rfl
    rw [h]
    exact (iha hni).pow n
  | ipow a n iha => intro hni; simp [noIpow] at hni
  | sinx => intro _; exact Real.continuous_sin
  | cosx => intro _; exact Real.continuous_cos
  | expx => intro _; exact Real.continuous_exp
  | ufun g a iha => intro _; exact continuous_const
  | intg a iha => intro _; exact continuous_const

/-! ### Correctness of the symbolic derivative and antiderivative. -/

theorem constQ_eq_some {a : Expr} {c : Frac} (h : constQ a = some c) : a = .const c := by
  cases a <;> simp_all [constQ]

/-- The defining equation of `integrateE` on products, stated for
rewriting. -/
theorem integrateE_mul (a b : Expr) :
    integrateE (.mul a b) =
      match constQ a with
      | some c => .mul (.const c) (integrateE b)
      | none =>
        match constQ b with
        | some c => .mul (.const c) (integrateE a)
        | none =>
          match toPoly (.mul a b) with
          | some p => ofPoly (pint p)
          | none => .intg (.mul a b) := rfl

/-- The defining equation of `integrateE` on powers, stated for
rewriting. -/
theorem integrateE_pow (a : Expr) (n : ℕ) :
    integrateE (.pow a n) =
      match toPoly (.pow a n) with
      | some p => ofPoly (pint p)
      | none => .intg (.pow a n) := rfl

/-- When the antiderivative is free of unevaluated integrals, both the
input and the antiderivative are free of negative-exponent powers (the
modelled engine routes every negative power to an unevaluated
integral). -/
theorem integrateE_noIntg_spec :
    ∀ e : Expr, noIntg (integrateE e) = true →
      noIpow e = true ∧ noIpow (integrateE e) = true := by
  intro e
  induction e with
  | const c => intro _; exact ⟨rfl, rfl⟩
  | var => intro _; exact ⟨rfl, rfl⟩
  | sym s => intro _; exact ⟨rfl, rfl⟩
  | add a b iha ihb =>
    intro h
    have hs : (noIntg (integrateE a) && noIntg (integrateE b)) = true := h
    obtain ⟨h1, h2⟩ := Bool.and_eq_true_iff.mp hs
    obtain ⟨ha1, ha2⟩ := iha h1
    obtain ⟨hb1, hb2⟩ := ihb h2
    constructor
    · show (noIpow a && noIpow b) = true
      rw [ha1, hb1]
      rfl
    · show (noIpow (integrateE a) && noIpow (integrateE b)) = true
      rw [ha2, hb2]
      rfl
  | neg a iha =>
    intro h
    obtain ⟨h1, h2⟩ := iha h
    exact ⟨h1, h2⟩
  | mul a b iha ihb =>
    intro h
    cases hca : constQ a with
    | some c =>
      obtain rfl := constQ_eq_some hca
      have heq : integrateE (.mul (.const c) b) = .mul (.const c) (integrateE b) := rfl
      rw [heq] at h
      have hs : (noIntg (.const c) && noIntg (integrateE b)) = true := h
      obtain ⟨hb1, hb2⟩ := ihb (Bool.and_eq_true_iff.mp hs).2
      constructor
      · show (noIpow (.const c) && noIpow b) = true
        rw [hb1]
        rfl
      · rw [heq]
        show (noIpow (.const c) && noIpow (integrateE b)) = true
        rw [hb2]
        rfl
    | none =>
      cases hcb : constQ b with
      | some c =>
        obtain rfl := constQ_eq_some hcb
        have heq : integrateE (.mul a (.const c)) = .mul (.const c) (integrateE a) := by
          rw [integrateE_mul, hca]
          rfl
        rw [heq] at h
        have hs : (noIntg (.const c) && noIntg (integrateE a)) = true := h
        obtain ⟨ha1, ha2⟩ := iha (Bool.and_eq_true_iff.mp hs).2
        constructor
        · show (noIpow a && noIpow (.const c)) = true
          rw [ha1]
          rfl
        · rw [heq]
          show (noIpow (.const c) && noIpow (integrateE a)) = true
          rw [ha2]
          rfl
      | none =>
        cases htp : toPoly (.mul a b) with
        | some p =>
          have heq : integrateE (.mul a b) = ofPoly (pint p) := by
            rw [integrateE_mul, hca, hcb, htp]
          constructor
          · exact toPoly_noIpow _ _ htp
          · rw [heq]
            exact ofPoly_noIpow _
        | none =>
          have heq : integrateE (.mul a b) = .intg (.mul a b) := by
            rw [integrateE_mul, hca, hcb, htp]
          rw [heq] at h
          simp [noIntg] at h
  | pow a n iha =>
    intro h
    cases htp : toPoly (.pow a n) with
    | some p =>
      have heq : integrateE (.pow a n) = ofPoly (pint p) := by
        rw [integrateE_pow, htp]
      constructor
      · exact toPoly_noIpow _ _ htp
      · rw [heq]
        exact ofPoly_noIpow _
    | none =>
      have heq : integrateE (.pow a n) = .intg (.pow a n) := by
        rw [integrateE_pow, htp]
      rw [heq] at h
      simp [noIntg] at h
  | ipow a n iha =>
    intro h
    simp [integrateE, noIntg] at h
  | sinx => intro _; exact ⟨rfl, rfl⟩
  | cosx => intro _; exact ⟨rfl, rfl⟩
  | expx => intro _; exact ⟨rfl, rfl⟩
  | ufun g a iha =>
    intro h
    simp [integrateE, noIntg] at h
  | intg a iha =>
    intro h
    simp [integrateE, noIntg] at h

/-- The symbolic derivative `derivE` computes the derivative of the real
denotation, on expressions free of negative-exponent powers. -/
theorem hasDerivAt_derivE : ∀ e : Expr, noIpow e = true → ∀ t : ℝ,
    HasDerivAt (evalR e) (evalR (derivE e) t) t := by
  intro e
  induction e with
  | const c =>
    intro _ t
    have hr : evalR (derivE (.const c)) t = 0 := by simp [derivE, evalR, Frac.toR]
    rw [hr]
    have hf : evalR (.const c) = fun _ : ℝ => c.toR := funext fun s => rfl
    rw [hf]
    exact hasDerivAt_const t _
  | var =>
    intro _ t
    have hr : evalR (derivE .var) t = 1 := by simp [derivE, evalR, Frac.toR]
    rw [hr]
    exact hasDerivAt_id t
  | sym s =>
    intro _ t
    have hr : evalR (derivE (.sym s)) t = 0 := by simp [derivE, evalR, Frac.toR]
    rw [hr]
    exact hasDerivAt_const t _
  | add a b iha ihb =>
    intro hni t
    have hs : (noIpow a && noIpow b) = true := hni
    have hsplit := Bool.and_eq_true_iff.mp hs
    have hf : evalR (.add a b) = fun s => evalR a s + evalR b s := funext fun s => rfl
    rw [hf]
    exact (iha hsplit.1 t).add (ihb hsplit.2 t)
  | neg a iha =>
    intro hni t
    have hf : evalR (.neg a) = fun s => -(evalR a s) := funext fun s => rfl
    rw [hf]
    exact (iha hni t).neg
  | mul a b iha ihb =>
    intro hni t
    have hs : (noIpow a && noIpow b) = true := hni
    have hsplit := Bool.and_eq_true_iff.mp hs
    have hf : evalR (.mul a b) = fun s => evalR a s * evalR b s := funext fun s => rfl
    rw [hf]
    exact (iha hsplit.1 t).mul (ihb hsplit.2 t)
  | pow a n iha =>
    intro hni t
    have hf : evalR (.pow a n) = fun s => (evalR a s) ^ n := funext fun s => rfl
    have hr : evalR (derivE (.pow a n)) t =
        (n : ℝ) * (evalR a t) ^ (n - 1) * evalR (derivE a) t := by
      simp [derivE, evalR, Frac.toR_ofNat]
    rw [hf, hr]
    exact (iha hni t).pow n
  | ipow a n iha => intro hni t; simp [noIpow] at hni
  | sinx =>
    intro _ t
    have hf : evalR .sinx = Real.sin := funext fun s => rfl
    rw [hf]
    exact Real.hasDerivAt_sin t
  | cosx =>
    intro _ t
    have hf : evalR .cosx = Real.cos := funext fun s => rfl
    have hr : evalR (derivE .cosx) t = -Real.sin t := rfl
    rw [hf, hr]
    exact Real.hasDerivAt_cos t
  | expx =>
    intro _ t
    have hf : evalR .expx = Real.exp := funext fun s => rfl
    rw [hf]
    exact Real.hasDerivAt_exp t
  | ufun g a iha =>
    intro _ t
    have hr : evalR (derivE (.ufun g a)) t = 0 := by simp [derivE, evalR, Frac.toR]
    rw [hr]
    exact hasDerivAt_const t _
  | intg a iha =>
    intro _ t
    have hr : evalR (derivE (.intg a)) t = 0 := by simp [derivE, evalR, Frac.toR]
    rw [hr]
    exact hasDerivAt_const t _

/-- Derivative of the shifted antiderivative coefficients: multiplying by
the degree offset and dividing by the successor index cancel under the
derivative of the power. -/
theorem pintAux_hasDerivAt :
    ∀ (p : List Frac) (k : ℕ) (t : ℝ),
      HasDerivAt (fun s : ℝ => s ^ (k + 1) * pEvalR (pintAux k p) s)
        (t ^ k * pEvalR p t) t := by
  intro p
  induction p with
  | nil =>
    intro k t
    have hf : (fun s : ℝ => s ^ (k + 1) * pEvalR (pintAux k []) s) = fun _ : ℝ => (0 : ℝ) :=
      funext fun s => by
        show s ^ (k + 1) * 0 = 0
        ring
    rw [hf]
    have hr : t ^ k * pEvalR ([] : List Frac) t = 0 := by
      show t ^ k * 0 = 0
      ring
    rw [hr]
    exact hasDerivAt_const t 0
  | cons c q ih =>
    intro k t
    have hd : (c.mul ⟨1, ⟨k + 1, k.succ_pos⟩⟩).toR = c.toR / ((k : ℝ) + 1) := by
      have h1 : (Frac.mk 1 ⟨k + 1, k.succ_pos⟩).toR = 1 / ((k : ℝ) + 1) := by
        rw [Frac.toR_mk]
        simp only [PNat.mk_coe]
        push_cast
        ring
      rw [Frac.toR_mul, h1]
      ring
    have hf : (fun s : ℝ => s ^ (k + 1) * pEvalR (pintAux k (c :: q)) s)
        = fun s : ℝ => c.toR / ((k : ℝ) + 1) * s ^ (k + 1)
            + s ^ (k + 1 + 1) * pEvalR (pintAux (k + 1) q) s :=
      funext fun s => by
        show s ^ (k + 1) * ((c.mul ⟨1, ⟨k + 1, k.succ_pos⟩⟩).toR
            + s * pEvalR (pintAux (k + 1) q) s) = _
        rw [hd]
        ring
    rw [hf]
    have h1 : HasDerivAt (fun s : ℝ => c.toR / ((k : ℝ) + 1) * s ^ (k + 1))
        (c.toR / ((k : ℝ) + 1) * (((k : ℝ) + 1) * t ^ k)) t := by
      have hp := (hasDerivAt_pow (k + 1) t).const_mul (c.toR / ((k : ℝ) + 1))
      have hr : ((k + 1 : ℕ) : ℝ) * t ^ (k + 1 - 1) = ((k : ℝ) + 1) * t ^ k := by
        push_cast
        norm_num
      rw [hr] at hp
      exact hp
    have hsum := h1.add (ih (k + 1) t)
    have hrate : c.toR / ((k : ℝ) + 1) * (((k : ℝ) + 1) * t ^ k)
        + t ^ (k + 1) * pEvalR q t = t ^ k * pEvalR (c :: q) t := by
      have hne : ((k : ℝ) + 1) ≠ 0 := Nat.cast_add_one_ne_zero k
      show _ = t ^ k * (c.toR + t * pEvalR q t)
      field_simp
      ring
    rw [hrate] at hsum
    exact hsum

/-- The antiderivative of a polynomial differentiates back to the
polynomial, coefficientwise. -/
theorem pint_hasDerivAt (p : List Frac) (t : ℝ) :
    HasDerivAt (fun s : ℝ => pEvalR (pint p) s) (pEvalR p t) t := by
  have hf : (fun s : ℝ => pEvalR (pint p) s)
      = fun s : ℝ => s ^ (0 + 1) * pEvalR (pintAux 0 p) s :=
    funext fun s => by
      show (⟨0, 1⟩ : Frac).toR + s * pEvalR (pintAux 0 p) s
          = s ^ (0 + 1) * pEvalR (pintAux 0 p) s
      rw [fracZero_toR]
      ring
  rw [hf]
  have h := pintAux_hasDerivAt p 0 t
  have hr : t ^ 0 * pEvalR p t = pEvalR p t := by ring
  rw [hr] at h
  exact h

/-- For an expression with polynomial coefficients, the engine's
polynomial antiderivative differentiates back to the expression. -/
theorem hasDerivAt_ofPoly_pint (e : Expr) (p : List Frac)
    (htp : toPoly e = some p) (t : ℝ) :
    HasDerivAt (evalR (ofPoly (pint p))) (evalR e t) t := by
  have hf : evalR (ofPoly (pint p)) = fun s : ℝ => pEvalR (pint p) s :=
    funext fun s => ofPoly_sound (pint p) s
  rw [hf, toPoly_sound e p htp t]
  exact pint_hasDerivAt p t

/-- When symbolic integration fully succeeds (result free of unevaluated
integrals), the denotation of the antiderivative has the denotation of the
integrand as derivative, everywhere. -/
theorem hasDerivAt_integrateE :
    ∀ e : Expr, noIntg (integrateE e) = true →
      ∀ t : ℝ, HasDerivAt (evalR (integrateE e)) (evalR e t) t := by
  intro e
  induction e with
  | const c =>
    intro _ t
    have hf : evalR (integrateE (.const c)) = fun s : ℝ => c.toR * s := funext fun s => rfl
    rw [hf]
    simpa using (hasDerivAt_id t).const_mul c.toR
  | var =>
    intro _ t
    have hf : evalR (integrateE .var) = fun s : ℝ => (Frac.mk 1 2).toR * s ^ 2 :=
      funext fun s => rfl
    rw [hf]
    have h := (hasDerivAt_pow 2 t).const_mul ((Frac.mk 1 2).toR)
    have hr : (Frac.mk 1 2).toR * ((2 : ℕ) * t ^ (2 - 1)) = t := by
      rw [Frac.toR_mk]
      norm_num
      ring
    rw [hr] at h
    exact h
  | sym s =>
    intro _ t
    have hf : evalR (integrateE (.sym s)) = fun s2 : ℝ => (0 : ℝ) * s2 := funext fun s2 => rfl
    rw [hf]
    have h := (hasDerivAt_id t).const_mul (0 : ℝ)
    simpa using h
  | add a b iha ihb =>
    intro hni t
    have hsplit : noIntg (integrateE a) = true ∧ noIntg (integrateE b) = true := by
      have hs : (noIntg (integrateE a) && noIntg (integrateE b)) = true := hni
      exact Bool.and_eq_true_iff.mp hs
    have hf : evalR (integrateE (.add a b)) =
        fun s => evalR (integrateE a) s + evalR (integrateE b) s := funext fun s => rfl
    rw [hf]
    exact (iha hsplit.1 t).add (ihb hsplit.2 t)
  | neg a iha =>
    intro hni t
    have hf : evalR (integrateE (.neg a)) = fun s => -(evalR (integrateE a) s) :=
      funext fun s => rfl
    rw [hf]
    exact (iha hni t).neg
  | mul a b iha ihb =>
    intro hni t
    cases hca : constQ a with
    | some c =>
      obtain rfl := constQ_eq_some hca
      have heq : integrateE (.mul (.const c) b) = .mul (.const c) (integrateE b) := rfl
      rw [heq] at hni
      have hb : noIntg (integrateE b) = true := by
        have hs : (noIntg (.const c) && noIntg (integrateE b)) = true := hni
        exact (Bool.and_eq_true_iff.mp hs).2
      have hf : evalR (integrateE (.mul (.const c) b)) =
          fun s => c.toR * evalR (integrateE b) s := by
        rw [heq]
        exact funext fun s => rfl
      rw [hf]
      exact (ihb hb t).const_mul c.toR
    | none =>
      cases hcb : constQ b with
      | some c =>
        obtain rfl := constQ_eq_some hcb
        have heq : integrateE (.mul a (.const c)) = .mul (.const c) (integrateE a) := by
          rw [integrateE_mul, hca]
          rfl
        rw [heq] at hni
        have ha : noIntg (integrateE a) = true := by
          have hs : (noIntg (.const c) && noIntg (integrateE a)) = true := hni
          exact (Bool.and_eq_true_iff.mp hs).2
        have hf : evalR (integrateE (.mul a (.const c))) =
            fun s => c.toR * evalR (integrateE a) s := by
          rw [heq]
          exact funext fun s => rfl
        rw [hf]
        have h := (iha ha t).const_mul c.toR
        have hr : c.toR * evalR a t = evalR (.mul a (.const c)) t := by
          show c.toR * evalR a t = evalR a t * c.toR
          ring
        rw [hr] at h
        exact h
      | none =>
        cases htp : toPoly (.mul a b) with
        | some p =>
          have heq : integrateE (.mul a b) = ofPoly (pint p) := by
            rw [integrateE_mul, hca, hcb, htp]
          rw [heq]
          exact hasDerivAt_ofPoly_pint (.mul a b) p htp t
        | none =>
          have heq : integrateE (.mul a b) = .intg (.mul a b) := by
            rw [integrateE_mul, hca, hcb, htp]
          rw [heq] at hni
          simp [noIntg] at hni
  | pow a n iha =>
    intro hni t
    cases htp : toPoly (.pow a n) with
    | some p =>
      have heq : integrateE (.pow a n) = ofPoly (pint p) := by
        rw [integrateE_pow, htp]
      rw [heq]
      exact hasDerivAt_ofPoly_pint (.pow a n) p htp t
    | none =>
      have heq : integrateE (.pow a n) = .intg (.pow a n) := by
        rw [integrateE_pow, htp]
      rw [heq] at hni
      simp [noIntg] at hni
  | ipow a n iha =>
    intro hni t
    simp [integrateE, noIntg] at hni
  | sinx =>
    intro _ t
    have hf : evalR (integrateE .sinx) = fun s => -(Real.cos s) := funext fun s => rfl
    rw [hf]
    have h := (Real.hasDerivAt_cos t).neg
    simpa using h
  | cosx =>
    intro _ t
    have hf : evalR (integrateE .cosx) = Real.sin := funext fun s => rfl
    rw [hf]
    exact Real.hasDerivAt_sin t
  | expx =>
    intro _ t
    have hf : evalR (integrateE .expx) = Real.exp := funext fun s => rfl
    rw [hf]
    exact Real.hasDerivAt_exp t
  | ufun g a iha =>
    intro hni t
    simp [integrateE, noIntg] at hni
  | intg a iha =>
    intro hni t
    simp [integrateE, noIntg] at hni

/-! ### Soundness of the modelled definite-integral conversion. -/

/-- Soundness of the generic conversion: a finite returned value equals
the interval integral of the real denotation of the integrand. -/
theorem definiteGeneric_sound (f : Expr) (a b q : Frac)
    (h : definiteGeneric f a b = some (.num q)) :
    q.toR = ∫ s in a.toR..b.toR, evalR f s := by
  unfold definiteGeneric at h
  cases hb : evalN (integrateE f) b with
  | none => rw [hb] at h; exact Option.noConfusion h
  | some vb =>
    cases ha : evalN (integrateE f) a with
    | none =>
      rw [hb, ha] at h
      cases vb with
      | num gb => exact Option.noConfusion h
      | nan => exact Option.noConfusion h
      | inf => exact Option.noConfusion h
      | ninf => exact Option.noConfusion h
    | some va =>
      rw [hb, ha] at h
      cases vb with
      | num gb =>
        cases va with
        | num ga =>
          have h2 : PFloat.num (gb.sub ga) = PFloat.num q := Option.some.inj h
          have hq : gb.sub ga = q := PFloat.num.inj h2
          have hniF : noIntg (integrateE f) = true := evalN_noIntg _ b _ hb
          obtain ⟨hnf, hnF⟩ := integrateE_noIntg_spec f hniF
          obtain ⟨gb2, hgb2, hgb2R⟩ := evalN_sound _ b hnF _ hb
          obtain ⟨ga2, hga2, hga2R⟩ := evalN_sound _ a hnF _ ha
          have hb2 : gb2 = gb := (PFloat.num.inj hgb2).symm
          have ha2 : ga2 = ga := (PFloat.num.inj hga2).symm
          subst hb2 ha2
          have hder : ∀ s ∈ Set.uIcc a.toR b.toR,
              HasDerivAt (evalR (integrateE f)) (evalR f s) s :=
            fun s _ => hasDerivAt_integrateE f hniF s
          have hint : IntervalIntegrable (evalR f) MeasureTheory.volume a.toR b.toR :=
            (evalR_continuous f hnf).intervalIntegrable _ _
          rw [intervalIntegral.integral_eq_sub_of_hasDerivAt hder hint]
          rw [← hq, Frac.toR_sub, hgb2R, hga2R]
        | nan => exact Option.noConfusion h
        | inf => exact Option.noConfusion h
        | ninf => exact Option.noConfusion h
      | nan => exact Option.noConfusion h
      | inf => exact Option.noConfusion h
      | ninf => exact Option.noConfusion h

/-- The singular cases never produce a finite number: they stand for the
symbolic infinity and NaN results. -/
theorem ipowSing_not_num (f : Expr) (l u : Frac) (q : Frac) :
    ipowSing f l u ≠ some (.num q) := by
  intro h
  unfold ipowSing at h
  split at h
  · split_ifs at h <;> simp at h
  · exact Option.noConfusion h

/-- Soundness of the modelled definite-integral evaluation: a finite
returned value equals the interval integral of the real denotation of the
integrand.  (The non-finite IEEE results carry no such equation.) -/
theorem definiteEval_sound (f : Expr) (a b q : Frac)
    (h : definiteEval f a b = some (.num q)) :
    q.toR = ∫ s in a.toR..b.toR, evalR f s := by
  cases hs : ipowSing f a b with
  | some v =>
    unfold definiteEval at h
    rw [hs] at h
    have h2 : some v = some (.num q) := h
    have hv : v = .num q := Option.some.inj h2
    exact absurd (hv ▸ hs) (ipowSing_not_num f a b q)
  | none =>
    unfold definiteEval at h
    rw [hs] at h
    exact definiteGeneric_sound f a b q h

/-! ### List-level facts about series assembly. -/

theorem seriesEval_length (f : Expr) :
    ∀ xs ys, seriesEval f xs = some ys → ys.length = xs.length := by
  intro xs
  induction xs with
  | nil =>
    intro ys h
    simp only [seriesEval, Option.some.injEq] at h
    subst h
    rfl
  | cons x l ih =>
    intro ys h
    simp only [seriesEval] at h
    cases hx : evalN f x with
    | none => rw [hx] at h; exact absurd h (by simp)
    | some y =>
      cases hs : seriesEval f l with
      | none => rw [hx, hs] at h; exact absurd h (by simp)
      | some ys2 =>
        rw [hx, hs] at h
        simp only [Option.some.injEq] at h
        subst h
        simp [ih ys2 hs]

theorem clean_num_map : ∀ xs : List Frac,
    clean_array_for_json (xs.map .num) = xs.map some := by
  intro xs
  induction xs with
  | nil => rfl
  | cons a l ih =>
    simp only [List.map_cons, clean_array_for_json] at ih ⊢
    rw [ih]
    rfl

/-- Every finite value surviving the clamp-then-sanitize pipeline has real
magnitude at most `1e6`. -/
theorem mem_clamped_bound {ys : List PFloat} {g : Frac}
    (h : some g ∈ clean_array_for_json (clampArr ys)) :
    |g.toR| ≤ 1000000 := by
  unfold clean_array_for_json clampArr at h
  rw [List.mem_map] at h
  obtain ⟨v, hv, hvg⟩ := h
  rw [List.mem_map] at hv
  obtain ⟨w, _, hwv⟩ := hv
  cases w with
  | num a =>
    by_cases htest : 1000000 * (a.den : ℕ) < a.num.natAbs
    · rw [show clampPF (.num a) = .nan by simp [clampPF, htest]] at hwv
      subst hwv
      simp [cleanValue] at hvg
    · rw [show clampPF (.num a) = .num a by simp [clampPF, htest]] at hwv
      subst hwv
      simp only [cleanValue, Option.some.injEq] at hvg
      subst hvg
      exact le_of_not_lt ((not_iff_not.mpr (Frac.clamp_test_iff a)).mp htest)
  | nan =>
    rw [show clampPF .nan = .nan from rfl] at hwv
    subst hwv
    simp [cleanValue] at hvg
  | inf =>
    rw [show clampPF .inf = .nan from rfl] at hwv
    subst hwv
    simp [cleanValue] at hvg
  | ninf =>
    rw [show clampPF .ninf = .nan from rfl] at hwv
    subst hwv
    simp [cleanValue] at hvg

theorem getD_map {α β : Type} (g : α → β) :
    ∀ (l : List α) (i : ℕ), i < l.length → ∀ (d : α),
      (l.map g).getD i (g d) = g (l.getD i d) := by
  intro l
  induction l with
  | nil => intro i h d; simp at h
  | cons a t ih =>
    intro i h d
    cases i with
    | zero => rfl
    | succ j =>
      simp only [List.map_cons, List.getD_cons_succ]
      exact ih j (by simpa using h) d

theorem getD_irrel {α : Type} :
    ∀ (l : List α) (i : ℕ), i < l.length → ∀ d1 d2 : α, l.getD i d1 = l.getD i d2 := by
  intro l
  induction l with
  | nil => intro i h; simp at h
  | cons a t ih =>
    intro i h d1 d2
    cases i with
    | zero => rfl
    | succ j =>
      simp only [List.getD_cons_succ]
      exact ih j (by simpa using h) d1 d2

/-- Eliminating a present series: the call succeeded (in particular the
expression mentions the variable, so the closure returned an array) and
both coordinate lists are the sanitized arrays. -/
theorem mkSeries_some_elim {f : Expr} {xs : List Frac} {pts : Points}
    (h : mkSeries f xs = some pts) :
    ∃ ys, seriesEval f xs = some ys ∧
      pts.x = clean_array_for_json (xs.map .num) ∧
      pts.y = clean_array_for_json (clampArr ys) := by
  unfold mkSeries at h
  cases hu : usesVar f with
  | false =>
    rw [hu] at h
    exact Option.noConfusion h
  | true =>
    rw [hu] at h
    cases hs : seriesEval f xs with
    | none =>
      rw [hs] at h
      exact Option.noConfusion h
    | some ys =>
      rw [hs] at h
      have h2 : some ({ x := clean_array_for_json (xs.map .num),
                        y := clean_array_for_json (clampArr ys) } : Points) = some pts := h
      obtain rfl := (Option.some.inj h2).symm
      exact ⟨ys, rfl, rfl, rfl⟩

theorem mkSeries_x (f : Expr) (xs : List Frac) (pts : Points)
    (h : mkSeries f xs = some pts) : pts.x = xs.map some := by
  obtain ⟨ys, _, hx, _⟩ := mkSeries_some_elim h
  rw [hx, clean_num_map]

theorem mkSeries_x_getD {f : Expr} {xs : List Frac} {pts : Points} (i : ℕ)
    (h : mkSeries f xs = some pts) (hi : i < xs.length) :
    pts.x.getD i none = some (xs.getD i ⟨0, 1⟩) := by
  rw [mkSeries_x f xs pts h]
  have hlen : i < (xs.map some).length := by rw [List.length_map]; exact hi
  rw [getD_irrel _ i hlen none (some ⟨0, 1⟩)]
  exact getD_map some xs i hi ⟨0, 1⟩

theorem mkSeries_y_length (f : Expr) (xs : List Frac) (pts : Points)
    (h : mkSeries f xs = some pts) : pts.y.length = xs.length := by
  obtain ⟨ys, hs, _, hy⟩ := mkSeries_some_elim h
  rw [hy]
  show (List.map cleanValue (List.map clampPF ys)).length = xs.length
  simp [seriesEval_length f xs ys hs]

theorem mkSeries_y_bound (f : Expr) (xs : List Frac) (pts : Points) (g : Frac)
    (h : mkSeries f xs = some pts) (hg : some g ∈ pts.y) : |g.toR| ≤ 1000000 := by
  obtain ⟨ys, _, _, hy⟩ := mkSeries_some_elim h
  rw [hy] at hg
  exact mem_clamped_bound hg

theorem mkSeries_none (f : Expr) (xs : List Frac)
    (h : seriesEval f xs = none) : mkSeries f xs = none := by
  unfold mkSeries
  rw [h]
  cases usesVar f <;> rfl

theorem linspace_length (a b : Frac) (n : ℕ) : (linspace a b n).length = n := by
  unfold linspace
  rw [List.length_map, List.length_range]

theorem range_getD : ∀ (n i : ℕ), i < n → (List.range n).getD i 0 = i := by
  intro n i h
  rw [List.getD_eq_getElem?_getD, List.getElem?_range h]
  rfl

theorem range_map_getD {α : Type} (f : ℕ → α) (n i : ℕ) (h : i < n) (d : α) :
    ((List.range n).map f).getD i d = f i := by
  have hl : i < ((List.range n).map f).length := by
    rw [List.length_map, List.length_range]; exact h
  rw [getD_irrel _ i hl d (f 0),
      getD_map f (List.range n) i (by rw [List.length_range]; exact h) 0,
      range_getD n i h]

theorem pnat_mk_coe (m : ℕ) (h : 0 < m) : (((⟨m, h⟩ : ℕ+) : ℕ)) = m := rfl

theorem linspace_getD (a b : Frac) (n i : ℕ) (h : i < n) (d : Frac) :
    (linspace a b n).getD i d
      = a.add ((b.sub a).mul ⟨(i : ℤ), ⟨max (n - 1) 1, by positivity⟩⟩) := by
  unfold linspace
  exact range_map_getD _ n i h d

/-- The real value of the `i`-th linspace sample. -/
theorem linspace_toR (a b : Frac) (n i : ℕ) (h : i < n) (d : Frac) :
    ((linspace a b n).getD i d).toR
      = a.toR + (b.toR - a.toR) * (i : ℝ) / ((max (n - 1) 1 : ℕ) : ℝ) := by
  rw [linspace_getD a b n i h d]
  simp only [Frac.toR_add, Frac.toR_mul, Frac.toR_sub, Frac.toR_mk, PNat.mk_coe]
  push_cast
  ring

/-! ### Unfolding facts about the request handler. -/

theorem calculate_err {req : CalcRequest} {msg : String}
    (h : parse_expr (req.function.getD "") (req.variableName.getD "x") = .error msg) :
    calculate req =
      { success := false, integral := none, function_points := none,
        integral_points := none, definite_value := none, area_points := none,
        error := some msg, http_status := 200 } := by
  unfold calculate
  rw [h]

theorem calculate_ok_fields {req : CalcRequest} {f : Expr}
    (h : parse_expr (req.function.getD "") (req.variableName.getD "x") = .ok f) :
    (calculate req).success = true ∧
    (calculate req).integral = some (integrateE f) ∧
    (calculate req).function_points = mkSeries f (linspace ⟨-10, 1⟩ ⟨10, 1⟩ 200) ∧
    (calculate req).integral_points
      = mkSeries (integrateE f) (linspace ⟨-10, 1⟩ ⟨10, 1⟩ 200) ∧
    (calculate req).definite_value
      = (definiteBranch f req.lower_limit req.upper_limit).1 ∧
    (calculate req).area_points
      = (definiteBranch f req.lower_limit req.upper_limit).2 ∧
    (calculate req).error = none ∧
    (calculate req).http_status = 200 := by
  unfold calculate
  rw [h]
  exact ⟨rfl, rfl, rfl, rfl, rfl, rfl, rfl, rfl⟩

theorem definiteBranch_eq (f : Expr) (sl su : String) :
    definiteBranch f (some sl) (some su) = definiteBranchF f (pyFloat sl) (pyFloat su) := rfl

theorem definiteBranchF_eval_some {f : Expr} {l u : Frac} {dv : PFloat}
    (hde : definiteEval f l u = some dv) :
    definiteBranchF f (some l) (some u) = (some dv, mkSeries f (linspace l u 100)) := by
  show (match definiteEval f l u with
        | some dv => (some dv, mkSeries f (linspace l u 100))
        | none => (none, none)) = _
  rw [hde]

theorem definiteBranchF_eval_none {f : Expr} {l u : Frac}
    (hde : definiteEval f l u = none) :
    definiteBranchF f (some l) (some u) = (none, none) := by
  show (match definiteEval f l u with
        | some dv => (some dv, mkSeries f (linspace l u 100))
        | none => (none, none)) = _
  rw [hde]

theorem definiteBranchF_none_left (f : Expr) (ou : Option Frac) :
    definiteBranchF f none ou = (none, none) := by
  cases ou <;> rfl

theorem definiteBranchF_none_right (f : Expr) (ol : Option Frac) :
    definiteBranchF f ol none = (none, none) := by
  cases ol <;> rfl

theorem definiteBranch_some {f : Expr} {sl su : String} {l u : Frac} {dv : PFloat}
    (hl : pyFloat sl = some l) (hu : pyFloat su = some u)
    (hde : definiteEval f l u = some dv) :
    definiteBranch f (some sl) (some su) = (some dv, mkSeries f (linspace l u 100)) := by
  rw [definiteBranch_eq, hl, hu, definiteBranchF_eval_some hde]

/-- If the second component of the definite block is a present series, it
was assembled by `mkSeries` over a 100-point linspace of the parsed
bounds. -/
theorem definiteBranch_snd_eq {f : Expr} {ll ul : Option String} {pts : Points}
    (h : (definiteBranch f ll ul).2 = some pts) :
    ∃ l u, mkSeries f (linspace l u 100) = some pts := by
  cases ll with
  | none => exact absurd h (by simp [definiteBranch])
  | some sl =>
    cases ul with
    | none => exact absurd h (by simp [definiteBranch])
    | some su =>
      rw [definiteBranch_eq] at h
      cases hpl : pyFloat sl with
      | none => rw [hpl, definiteBranchF_none_left] at h; exact absurd h (by simp)
      | some l =>
        cases hpu : pyFloat su with
        | none => rw [hpl, hpu, definiteBranchF_none_right] at h; exact absurd h (by simp)
        | some u =>
          cases hde : definiteEval f l u with
          | none => rw [hpl, hpu, definiteBranchF_eval_none hde] at h; exact absurd h (by simp)
          | some dv =>
            rw [hpl, hpu, definiteBranchF_eval_some hde] at h
            exact ⟨l, u, h⟩

/-! ### The claims. -/

set_option maxRecDepth 1000000

/-- C1 (amended): for every request that reaches the definite-integral
block (the expression parsed) and supplies both bounds, if the bounds fail
to parse as numbers, or the conversion of the definite result to a float
raises (a non-numeric symbolic leftover or an unevaluated integral), then
both the `definite_value` field and the `area_points` field are absent from
the response, and the response still has `success = true`.  The claim's
symbolic-infinity case is excluded here because it is false on the program:
`float()` of sympy `oo`/`nan` returns the IEEE value instead of raising,
see the counterexample. -/
theorem definite_failure_omits_both (req : CalcRequest) (e : Expr) (sl su : String)
    (hparse : parse_expr (req.function.getD "") (req.variableName.getD "x") = .ok e)
    (hls : req.lower_limit = some sl) (hus : req.upper_limit = some su)
    (hfail : ∀ l u : Frac, pyFloat sl = some l → pyFloat su = some u →
      definiteEval e l u = none) :
    (calculate req).definite_value = none ∧ (calculate req).area_points = none ∧
      (calculate req).success = true := by
  obtain ⟨hsucc, _, _, _, hdv, hap, _, _⟩ := calculate_ok_fields hparse
  refine ⟨?_, ?_, hsucc⟩
  · rw [hdv, hls, hus, definiteBranch_eq]
    cases hpl : pyFloat sl with
    | none => rw [definiteBranchF_none_left]
    | some l =>
      cases hpu : pyFloat su with
      | none => rw [definiteBranchF_none_right]
      | some u => rw [definiteBranchF_eval_none (hfail l u hpl hpu)]
  · rw [hap, hls, hus, definiteBranch_eq]
    cases hpl : pyFloat sl with
    | none => rw [definiteBranchF_none_left]
    | some l =>
      cases hpu : pyFloat su with
      | none => rw [definiteBranchF_none_right]
      | some u => rw [definiteBranchF_eval_none (hfail l u hpl hpu)]

def c1req : CalcRequest :=
  { function := some "x", lower_limit := some "a", upper_limit := some "2" }

/-- Witness for C1: the request `function="x"`, `lower_limit="a"`,
`upper_limit="2"` has an unparseable lower bound, and the response omits
both definite fields while keeping `success = true`. -/
theorem definite_failure_omits_both_witness :
    (calculate c1req).definite_value = none ∧ (calculate c1req).area_points = none ∧
      (calculate c1req).success = true :=
  definite_failure_omits_both c1req .var "a" "2" (by decide) (by decide) (by decide)
    (fun l u hl _ => by
      rw [show pyFloat "a" = none by decide] at hl
      exact absurd hl (by simp))

def c1creq : CalcRequest :=
  { function := some "x**-2", lower_limit := some "-1", upper_limit := some "1" }

/-- Counterexample to C1 as stated: for `function="x**-2"` with bounds `-1`
and `1` the definite integral is sympy's symbolic `oo`, and Python
`float()` converts it to the IEEE infinity instead of raising, so
`definite_value` is present (as `Infinity`) and `area_points` is present
too, with `success = true`: the symbolic-infinity result is propagated as a
value, not treated as an omitted evaluation failure. -/
theorem definite_infinity_counterexample :
    (calculate c1creq).definite_value = some PFloat.inf ∧
    (calculate c1creq).area_points ≠ none ∧
    (calculate c1creq).success = true := by
  decide

/-- C7: for every request on which parsing the expression raises, the
response is exactly `{success: false, error: <the exception text>}` with
all data fields absent, served with HTTP status 200.  (In the embedding,
symbol construction and indefinite integration are total, so parsing is the
only step of the guarded block that can raise.) -/
theorem parse_failure_response (req : CalcRequest) (msg : String)
    (h : parse_expr (req.function.getD "") (req.variableName.getD "x") = .error msg) :
    calculate req =
      { success := false, integral := none, function_points := none,
        integral_points := none, definite_value := none, area_points := none,
        error := some msg, http_status := 200 } :=
  calculate_err h

def c7req : CalcRequest := { function := some "x**" }

/-- Witness for C7: the malformed expression `"x**"` produces
`success = false` with a non-empty error string and HTTP status 200. -/
theorem parse_failure_response_witness :
    calculate c7req =
      { success := false, integral := none, function_points := none,
        integral_points := none, definite_value := none, area_points := none,
        error := some "SyntaxError: unexpected EOF while parsing",
        http_status := 200 } ∧
    ("SyntaxError: unexpected EOF while parsing").length ≠ 0 :=
  ⟨parse_failure_response c7req "SyntaxError: unexpected EOF while parsing" (by decide),
   by decide⟩

/-- C9: the request handler is a pure function of the request body alone
(the embedding reads no other state), so identical request bodies yield
identical responses. -/
theorem handler_deterministic (r1 r2 : CalcRequest) (h : r1 = r2) :
    calculate r1 = calculate r2 := by
  rw [h]

/-- Witness for C9 at a concrete request. -/
theorem handler_deterministic_witness :
    calculate { function := some "x**2" } = calculate { function := some "x**2" } :=
  handler_deterministic { function := some "x**2" } { function := some "x**2" } rfl

/-- C10: a request whose body omits the `function` field or supplies it as
the empty string defaults the expression text to `""`, parsing raises, and
the handler returns `success = false` with a non-empty error string. -/
theorem missing_function_fails (req : CalcRequest)
    (h : req.function = none ∨ req.function = some "") :
    (calculate req).success = false ∧
      ∃ msg, (calculate req).error = some msg ∧ msg.length ≠ 0 := by
  have hget : req.function.getD "" = "" := by
    rcases h with h | h <;> rw [h] <;> rfl
  have hp : parse_expr (req.function.getD "") (req.variableName.getD "x")
      = .error "SyntaxError: unexpected EOF while parsing" := by
    rw [hget]
    rfl
  rw [calculate_err hp]
  exact ⟨rfl, "SyntaxError: unexpected EOF while parsing", rfl, by decide⟩

/-- Witness for C10: the empty request body fails with a non-empty error. -/
theorem missing_function_fails_witness :
    (calculate {}).success = false ∧
      ∃ msg, (calculate {}).error = some msg ∧ msg.length ≠ 0 :=
  missing_function_fails {} (Or.inl rfl)

/-- C2 (amended): for every request whose bounds both parse as numbers and
whose definite integral converts to a finite float, `definite_value` equals
the interval integral of the parsed expression's denotation over
`[lower, upper]`, and `area_points` is built by exactly the same
evaluation-and-clamping rule as the other series (`mkSeries`) over 100
evenly spaced points spanning `[lower, upper]`; whenever that series is
present it carries the 100 evenly spaced x-values.  The claim's
unconditional presence of `area_points` is false on the program: for a
variable-free integrand the lambdified closure returns a scalar, the
sanitizer comprehension raises after `definite_value` was already assigned,
and the block swallows the exception, see the counterexample. -/
theorem definite_value_correct (req : CalcRequest) (e : Expr) (sl su : String)
    (l u dv : Frac)
    (hparse : parse_expr (req.function.getD "") (req.variableName.getD "x") = .ok e)
    (hls : req.lower_limit = some sl) (hus : req.upper_limit = some su)
    (hl : pyFloat sl = some l) (hu : pyFloat su = some u)
    (hdv : (calculate req).definite_value = some (.num dv)) :
    dv.toR = (∫ s in l.toR..u.toR, evalR e s) ∧
    (calculate req).area_points = mkSeries e (linspace l u 100) ∧
    (∀ apts : Points, (calculate req).area_points = some apts →
      apts.x.length = 100 ∧ apts.y.length = 100 ∧
      ∀ i, i < 100 → ∃ g : Frac, apts.x.getD i none = some g ∧
        g.toR = l.toR + (u.toR - l.toR) * (i : ℝ) / 99) := by
  obtain ⟨_, _, _, _, hdvf, hapf, _, _⟩ := calculate_ok_fields hparse
  rw [hdvf, hls, hus, definiteBranch_eq, hl, hu] at hdv
  cases hde : definiteEval e l u with
  | none =>
    rw [definiteBranchF_eval_none hde] at hdv
    exact absurd hdv (by simp)
  | some dv2 =>
    rw [definiteBranchF_eval_some hde] at hdv
    have hdd : some dv2 = some (.num dv) := hdv
    obtain rfl := Option.some.inj hdd
    have harea : (calculate req).area_points = mkSeries e (linspace l u 100) := by
      rw [hapf, hls, hus, definiteBranch_eq, hl, hu, definiteBranchF_eval_some hde]
    refine ⟨definiteEval_sound e l u dv hde, harea, ?_⟩
    intro apts hap
    rw [harea] at hap
    refine ⟨?_, ?_, ?_⟩
    · rw [mkSeries_x e (linspace l u 100) apts hap, List.length_map, linspace_length]
    · rw [mkSeries_y_length e (linspace l u 100) apts hap, linspace_length]
    · intro i hi
      have hx := mkSeries_x_getD i hap (by rw [linspace_length]; exact hi)
      refine ⟨_, hx, ?_⟩
      rw [linspace_toR l u 100 i hi]
      norm_num

def c2req : CalcRequest :=
  { function := some "2x+3", lower_limit := some "0", upper_limit := some "2" }

/-- Witness for C2: for `function="2x+3"`, bounds 0 and 2, the response's
definite value is the finite float `40/4`, whose real value is `10` and
equals the interval integral of `2x+3` over `[0, 2]`; the area series is
present with 100 x-entries. -/
theorem definite_value_correct_witness :
    (calculate c2req).definite_value = some (.num ⟨40, 4⟩) ∧
    (Frac.mk 40 4).toR = 10 ∧
    ((Frac.mk 40 4).toR = ∫ s in (Frac.mk 0 1).toR..(Frac.mk 2 1).toR,
        evalR (.add (.mul (.const ⟨2, 1⟩) .var) (.const ⟨3, 1⟩)) s) ∧
    ((calculate c2req).area_points.getD ⟨[], []⟩).x.length = 100 := by
  have main := definite_value_correct c2req
      (.add (.mul (.const ⟨2, 1⟩) .var) (.const ⟨3, 1⟩)) "0" "2" ⟨0, 1⟩ ⟨2, 1⟩ ⟨40, 4⟩
      (by decide) (by decide) (by decide) (by decide) (by decide) (by decide)
  refine ⟨by decide, ?_, main.1, ?_⟩
  · show ((40 : ℤ) : ℝ) / ((4 : ℕ) : ℝ) = 10
    norm_num
  · exact (main.2.2 ((calculate c2req).area_points.getD ⟨[], []⟩) (by decide)).1

def c2creq : CalcRequest :=
  { function := some "3", lower_limit := some "0", upper_limit := some "2" }

/-- Counterexample to C2 as stated: for the constant `function="3"` with
bounds 0 and 2 both bounds parse and `definite_value` is the finite float
6.0 (the value of the integral), but `area_points` is null in the success
response: `sp.lambdify` of a variable-free expression returns a scalar, so
the area sampling raises inside the definite block after `definite_value`
was assigned, and the `except: pass` swallows it. -/
theorem area_presence_counterexample :
    (calculate c2creq).definite_value = some (.num ⟨6, 1⟩) ∧
    (Frac.mk 6 1).toR = 6 ∧
    (calculate c2creq).area_points = none ∧
    (calculate c2creq).success = true := by
  refine ⟨by decide, ?_, by decide, by decide⟩
  show ((6 : ℤ) : ℝ) / ((1 : ℕ) : ℝ) = 6
  norm_num

/-- C3: in every returned sample series of a response (function, integral
or area series), no `y` entry is a number whose real magnitude exceeds
`1e6`: every larger evaluated value was replaced with NaN before
sanitization and therefore appears as `none`. -/
theorem clamp_law (req : CalcRequest) (pts : Points) (g : Frac)
    (hpts : (calculate req).function_points = some pts ∨
            (calculate req).integral_points = some pts ∨
            (calculate req).area_points = some pts)
    (hg : some g ∈ pts.y) :
    |g.toR| ≤ 1000000 := by
  cases hp : parse_expr (req.function.getD "") (req.variableName.getD "x") with
  | error msg =>
    rw [calculate_err hp] at hpts
    simp at hpts
  | ok f =>
    obtain ⟨_, _, hfp, hip, _, hap, _, _⟩ := calculate_ok_fields hp
    rcases hpts with h | h | h
    · rw [hfp] at h
      exact mkSeries_y_bound _ _ _ _ h hg
    · rw [hip] at h
      exact mkSeries_y_bound _ _ _ _ h hg
    · rw [hap] at h
      obtain ⟨l, u, hmk⟩ := definiteBranch_snd_eq h
      exact mkSeries_y_bound _ _ _ _ hmk hg

def c3req : CalcRequest := { function := some "x**2" }

/-- Witness for C3: the function series of `x**2` contains the value
`(-10)^2 = 3960100/39601`, and its magnitude is within the bound. -/
theorem clamp_law_witness :
    some (Frac.mk 3960100 39601)
        ∈ ((calculate c3req).function_points.getD ⟨[], []⟩).y ∧
    |(Frac.mk 3960100 39601).toR| ≤ 1000000 :=
  ⟨by decide,
   clamp_law c3req ((calculate c3req).function_points.getD ⟨[], []⟩)
     (Frac.mk 3960100 39601) (Or.inl (by decide)) (by decide)⟩

/-- C4: the sanitizer returns a sequence of the same length in which an
element is `none` exactly when the corresponding input element is NaN or an
infinity, and every other element carries the original value unchanged (no
rounding, no reordering).  The `getD` defaults are irrelevant: the index is
in range. -/
theorem clean_array_spec (arr : List PFloat) :
    (clean_array_for_json arr).length = arr.length ∧
    ∀ i, i < arr.length →
      (((clean_array_for_json arr).getD i none = none) ↔
        (arr.getD i .nan = .nan ∨ arr.getD i .nan = .inf ∨ arr.getD i .nan = .ninf)) ∧
      ∀ g : Frac, arr.getD i .nan = .num g →
        (clean_array_for_json arr).getD i none = some g := by
  constructor
  · unfold clean_array_for_json
    exact List.length_map _ _
  · intro i hi
    have hgd : (clean_array_for_json arr).getD i none = cleanValue (arr.getD i .nan) := by
      unfold clean_array_for_json
      exact getD_map cleanValue arr i hi .nan
    rw [hgd]
    cases harr : arr.getD i .nan with
    | num g => simp [cleanValue]
    | nan => simp [cleanValue]
    | inf => simp [cleanValue]
    | ninf => simp [cleanValue]

/-- Witness for C4 on a concrete array, at the NaN position. -/
theorem clean_array_spec_witness :
    (1 < ([PFloat.num ⟨3, 2⟩, .nan, .inf, .ninf] : List PFloat).length) ∧
    ((((clean_array_for_json [PFloat.num ⟨3, 2⟩, .nan, .inf, .ninf]).getD 1 none = none) ↔
        (([PFloat.num ⟨3, 2⟩, .nan, .inf, .ninf] : List PFloat).getD 1 .nan = .nan ∨
         ([PFloat.num ⟨3, 2⟩, .nan, .inf, .ninf] : List PFloat).getD 1 .nan = .inf ∨
         ([PFloat.num ⟨3, 2⟩, .nan, .inf, .ninf] : List PFloat).getD 1 .nan = .ninf)) ∧
      ∀ g : Frac, ([PFloat.num ⟨3, 2⟩, .nan, .inf, .ninf] : List PFloat).getD 1 .nan = .num g →
        (clean_array_for_json [PFloat.num ⟨3, 2⟩, .nan, .inf, .ninf]).getD 1 none = some g) :=
  ⟨by decide, (clean_array_spec [PFloat.num ⟨3, 2⟩, .nan, .inf, .ninf]).2 1 (by decide)⟩

def c5req : CalcRequest := { function := some "x**2" }

/-- C5: every present function or integral series is sampled at 200 evenly
spaced points over the closed interval [-10, 10] (the i-th x-value is
-10 + 20 i / 199); in particular for `function="x**2"` with the default
variable, the returned antiderivative denotes `x^3/3` and both series are
present with 200 points each. -/
theorem sampling_spec :
    (∀ (req : CalcRequest) (pts : Points),
      ((calculate req).function_points = some pts ∨
        (calculate req).integral_points = some pts) →
      pts.x.length = 200 ∧ pts.y.length = 200 ∧
        ∀ i, i < 200 → ∃ g : Frac, pts.x.getD i none = some g ∧
          g.toR = -10 + 20 * (i : ℝ) / 199) ∧
    (∀ t : ℝ, evalR ((calculate c5req).integral.getD (.const ⟨0, 1⟩)) t = t ^ 3 / 3) ∧
    (∃ p1, (calculate c5req).function_points = some p1) ∧
    (∃ p2, (calculate c5req).integral_points = some p2) := by
  refine ⟨?_, ?_, ?_, ?_⟩
  · intro req pts hpts
    cases hp : parse_expr (req.function.getD "") (req.variableName.getD "x") with
    | error msg =>
      rw [calculate_err hp] at hpts
      simp at hpts
    | ok f =>
      obtain ⟨_, _, hfp, hip, _, _, _, _⟩ := calculate_ok_fields hp
      have hex : ∃ ff, mkSeries ff (linspace ⟨-10, 1⟩ ⟨10, 1⟩ 200) = some pts := by
        rcases hpts with h | h
        · exact ⟨f, by rw [← hfp]; exact h⟩
        · exact ⟨integrateE f, by rw [← hip]; exact h⟩
      obtain ⟨ff, hmk⟩ := hex
      refine ⟨?_, ?_, ?_⟩
      · rw [mkSeries_x _ _ _ hmk, List.length_map, linspace_length]
      · rw [mkSeries_y_length _ _ _ hmk, linspace_length]
      · intro i hi
        have hx := mkSeries_x_getD i hmk (by rw [linspace_length]; exact hi)
        refine ⟨_, hx, ?_⟩
        rw [linspace_toR _ _ 200 i hi]
        norm_num [Frac.toR_mk]
  · obtain ⟨_, hint, _, _, _, _, _, _⟩ :=
      @calculate_ok_fields c5req (.pow .var 2) (by decide)
    intro t
    rw [hint]
    show evalR (ofPoly (pint (pPow [(⟨0, 1⟩ : Frac), ⟨1, 1⟩] 2))) t = t ^ 3 / 3
    rw [ofPoly_sound]
    have hlist : pint (pPow [(⟨0, 1⟩ : Frac), ⟨1, 1⟩] 2)
        = [⟨0, 1⟩, ⟨0, 1⟩, ⟨0, 2⟩, ⟨1, 3⟩] := by decide
    rw [hlist]
    show ((0 : ℤ) : ℝ) / ((1 : ℕ) : ℝ)
        + t * (((0 : ℤ) : ℝ) / ((1 : ℕ) : ℝ)
          + t * (((0 : ℤ) : ℝ) / ((2 : ℕ) : ℝ)
            + t * (((1 : ℤ) : ℝ) / ((3 : ℕ) : ℝ) + t * 0))) = t ^ 3 / 3
    push_cast
    ring
  · exact Option.isSome_iff_exists.mp (by decide)
  · exact Option.isSome_iff_exists.mp (by decide)

/-- Witness for C5: the function series of `x**2` is present with 200
points in both coordinate lists. -/
theorem sampling_spec_witness :
    ((calculate c5req).function_points
        = some ((calculate c5req).function_points.getD ⟨[], []⟩) ∨
      (calculate c5req).integral_points
        = some ((calculate c5req).function_points.getD ⟨[], []⟩)) ∧
    ((calculate c5req).function_points.getD ⟨[], []⟩).x.length = 200 ∧
    ((calculate c5req).function_points.getD ⟨[], []⟩).y.length = 200 :=
  ⟨Or.inl (by decide),
   (sampling_spec.1 c5req _ (Or.inl (by decide))).1,
   (sampling_spec.1 c5req _ (Or.inl (by decide))).2.1⟩

/-- C6: when numeric evaluation of a whole sample series raises, the
corresponding points field is absent in its entirety (and a present series
always carries all 200 points, never a partial prefix), while the response
still reports `success = true`. -/
theorem series_failure_drops_whole (req : CalcRequest) (e : Expr)
    (hparse : parse_expr (req.function.getD "") (req.variableName.getD "x") = .ok e) :
    (seriesEval e (linspace ⟨-10, 1⟩ ⟨10, 1⟩ 200) = none →
        (calculate req).function_points = none) ∧
    (seriesEval (integrateE e) (linspace ⟨-10, 1⟩ ⟨10, 1⟩ 200) = none →
        (calculate req).integral_points = none) ∧
    (calculate req).success = true ∧
    (∀ pts, (calculate req).function_points = some pts → pts.y.length = 200) ∧
    (∀ pts, (calculate req).integral_points = some pts → pts.y.length = 200) := by
  obtain ⟨hsucc, _, hfp, hip, _, _, _, _⟩ := calculate_ok_fields hparse
  refine ⟨?_, ?_, hsucc, ?_, ?_⟩
  · intro hse
    rw [hfp, mkSeries_none _ _ hse]
  · intro hse
    rw [hip, mkSeries_none _ _ hse]
  · intro pts hmk
    rw [hfp] at hmk
    have h2 := mkSeries_y_length _ _ _ hmk
    rwa [linspace_length] at h2
  · intro pts hmk
    rw [hip] at hmk
    have h2 := mkSeries_y_length _ _ _ hmk
    rwa [linspace_length] at h2

def c6req : CalcRequest := { function := some "g(x)" }

/-- Witness for C6: for `function="g(x)"` (an undefined function, whose
numeric closure raises `NameError` when called) both series are dropped
whole and the request still succeeds. -/
theorem series_failure_drops_whole_witness :
    (calculate c6req).function_points = none ∧
    (calculate c6req).integral_points = none ∧
    (calculate c6req).success = true := by
  have main := series_failure_drops_whole c6req (.ufun "g" .var) (by decide)
  exact ⟨main.1 (by decide), main.2.1 (by decide), main.2.2.1⟩

/-- C8: for every expression on which symbolic integration fully succeeds
(in particular every polynomial / trigonometric / exponential combination
the engine integrates, products of non-constant polynomial factors
included), differentiating the returned antiderivative with respect to the
variable yields an expression whose real denotation equals that of the
input everywhere: the round-trip law up to algebraic simplification. -/
theorem integral_roundtrip (e : Expr) (h : noIntg (integrateE e) = true) (t : ℝ) :
    evalR (derivE (integrateE e)) t = evalR e t :=
  (hasDerivAt_derivE (integrateE e) (integrateE_noIntg_spec e h).2 t).unique
    (hasDerivAt_integrateE e h t)

/-- Witness for C8 at the mixed polynomial/trigonometric/exponential
expression `x^2 + (sin x + exp x)` and at the product of non-constant
factors `(x+1)*(x+2)`. -/
theorem integral_roundtrip_witness :
    noIntg (integrateE (.add (.pow .var 2) (.add .sinx .expx))) = true ∧
    (∀ t : ℝ,
      evalR (derivE (integrateE (.add (.pow .var 2) (.add .sinx .expx)))) t
        = evalR (.add (.pow .var 2) (.add .sinx .expx)) t) ∧
    noIntg (integrateE (.mul (.add .var (.const ⟨1, 1⟩)) (.add .var (.const ⟨2, 1⟩)))) = true ∧
    ∀ t : ℝ,
      evalR (derivE (integrateE
          (.mul (.add .var (.const ⟨1, 1⟩)) (.add .var (.const ⟨2, 1⟩))))) t
        = evalR (.mul (.add .var (.const ⟨1, 1⟩)) (.add .var (.const ⟨2, 1⟩))) t :=
  ⟨by decide, fun t => integral_roundtrip (.add (.pow .var 2) (.add .sinx .expx)) (by decide) t,
   by decide,
   fun t => integral_roundtrip
     (.mul (.add .var (.const ⟨1, 1⟩)) (.add .var (.const ⟨2, 1⟩))) (by decide) t⟩

end CalcModel
